import Mathlib

/-!
Shallow embedding of the driver-manager runtime in
`src/devices/bin/driver_manager/driver_runner.cc` (the `Node`,
`DriverComponent`, `DriverHostComponent` and `DriverRunner` classes), together
with proofs about the embedded operations.  Each section names the source
function it translates; machine status codes are the Zircon constants used by
the source.
-/

namespace DriverManager

/-- Zircon status code `ZX_ERR_INVALID_ARGS`. -/
def ZX_ERR_INVALID_ARGS : Int := -10

/-- Zircon status code `ZX_ERR_UNAVAILABLE`. -/
def ZX_ERR_UNAVAILABLE : Int := -28

/-- Zircon status code `ZX_ERR_NEXT` (the "wait for more" signal). -/
def ZX_ERR_NEXT : Int := -61

/-- `kTokenId = PA_HND(PA_USER0, 0)`: the reserved numbered-handle id tag
attached to driver start tokens (driver_runner.cc line 41). -/
def kTokenId : Nat := 0xF0

/-- The `Collection` enum of driver_runner.h: where a node's driver component
runs. -/
inductive Collection where
  | none
  | host
  | boot
  | package
deriving DecidableEq, Repr

/-- `CollectionName` (driver_runner.cc lines 125-136): fixed string identifier
of each collection. -/
def CollectionName : Collection → String
  | .none => ""
  | .host => "driver-hosts"
  | .boot => "boot-drivers"
  | .package => "pkg-drivers"

/-! ## Node::AddChild (driver_runner.cc lines 434-547)

The FIDL request is embedded as explicit optional fields.  An offer with an
unknown union tag makes `VisitOffer` return an empty optional, so both
`has_source_name` and `has_ref` collapse to `value_or(false)`; a known-tag
offer is embedded as the fields of the visited declaration that the two
validation lambdas read. -/
/-- The fields of an offer declaration read by AddChild validation: whether the
declaration has a source name, a source reference, and a target reference.
`VisitOffer` on an unknown-tag offer yields no declaration, which we embed as
`Option.none` at the `OfferArg` level below. -/
structure OfferDecl where
  sourceName : Option String
  hasSource : Bool
  hasTarget : Bool
deriving DecidableEq, Repr

/-- An offer in the request: `Option.none` is an unknown-tag union (for which
`VisitOffer` applies nothing). -/
def OfferArg := Option OfferDecl
deriving DecidableEq

/-- A `NodeSymbol` table from the request: both fields optional. -/
structure SymbolArg where
  symName : Option String
  address : Option Nat
deriving DecidableEq, Repr

/-- A `NodeProperty` table from the request: both fields optional; AddChild
copies whichever fields are present without validation. -/
structure PropertyArg where
  key : Option Nat
  value : Option Nat
deriving DecidableEq, Repr

/-- The `NodeAddArgs` FIDL table. -/
structure NodeAddArgs where
  name : Option String
  offers : Option (List OfferArg)
  properties : Option (List PropertyArg)
  symbols : Option (List SymbolArg)
deriving DecidableEq

/-- The `fuchsia.driver.framework/NodeError` codes AddChild replies with. -/
inductive NodeError where
  | nodeRemoved
  | nameMissing
  | nameInvalid
  | nameAlreadyExists
  | offerSourceNameMissing
  | offerRefExists
  | symbolNameMissing
  | symbolAddressMissing
  | symbolAlreadyExists
deriving DecidableEq, Repr

/-- The child node constructed by a successful AddChild. -/
structure ChildNode where
  childName : String
  childOffers : List OfferDecl
  childProperties : List PropertyArg
  childSymbols : List (String × Nat)
deriving DecidableEq, Repr

/-- The offers loop of AddChild (lines 462-484): first offending offer decides
the error; otherwise the validated declarations are accumulated in order. -/
def collectOffers : List OfferArg → Except NodeError (List OfferDecl)
  | [] => .ok []
  | o :: os =>
    -- has_source_name = VisitOffer(...).value_or(false)
    match o with
    | Option.none => .error .offerSourceNameMissing
    | Option.some d =>
      if d.sourceName.isNone then .error .offerSourceNameMissing
      else if d.hasSource || d.hasTarget then .error .offerRefExists
      else do
        let rest ← collectOffers os
        return d :: rest

/-- The symbols loop of AddChild (lines 500-530): name presence, then address
presence, then duplicate-name detection against the names accumulated so far. -/
def collectSymbols (seen : List String) :
    List SymbolArg → Except NodeError (List (String × Nat))
  | [] => .ok []
  | s :: ss =>
    match s.symName with
    | Option.none => .error .symbolNameMissing
    | Option.some n =>
      match s.address with
      | Option.none => .error .symbolAddressMissing
      | Option.some a =>
        if n ∈ seen then .error .symbolAlreadyExists
        else do
          let rest ← collectSymbols (n :: seen) ss
          return (n, a) :: rest

/-- The result of `Node::AddChild`: the FIDL reply together with the parent's
children-name list after the call (the child is attached by `AddToParents`
only after all validation has passed, line 543). -/
structure AddChildOut where
  reply : Except NodeError ChildNode
  childrenAfter : List String

/-- `Node::AddChild` (lines 434-547).  `binderPresent` is
`driver_binder_ != nullptr` (cleared when the node is mid-removal), `children`
the names of the node's current children. -/
def addChild (binderPresent : Bool) (children : List String) (args : NodeAddArgs) :
    AddChildOut :=
  if !binderPresent then ⟨.error .nodeRemoved, children⟩
  else
    match args.name with
    | Option.none => ⟨.error .nameMissing, children⟩
    | Option.some name =>
      -- name.find('.') != std::string_view::npos
      if '.' ∈ name.data then ⟨.error .nameInvalid, children⟩
      else if name ∈ children then ⟨.error .nameAlreadyExists, children⟩
      else
        match collectOffers (args.offers.getD []) with
        | .error e => ⟨.error e, children⟩
        | .ok offs =>
          -- the properties loop (lines 486-498) copies fields and cannot fail
          let props := args.properties.getD []
          match collectSymbols [] (args.symbols.getD []) with
          | .error e => ⟨.error e, children⟩
          | .ok syms =>
            -- child->AddToParents() appends the child to this node's children
            ⟨.ok ⟨name, offs, props, syms⟩, children ++ [name]⟩

/-! ## Node::Node and Node::symbols (driver_runner.cc lines 249-261, 279-290) -/
/-- A node view sufficient for the constructor and `symbols()`: the driver-host
reference is `std::optional<DriverHostComponent*>`, embedded as an optional
host id.  Parents are embedded structurally. -/
inductive NodeV where
  | mk (driverHost : Option Nat) (symbols_ : List (String × Nat)) (parents : List NodeV)

namespace NodeV

def driverHost : NodeV → Option Nat
  | .mk h _ _ => h

def symbols_ : NodeV → List (String × Nat)
  | .mk _ s _ => s

def parents : NodeV → List NodeV
  | .mk _ _ p => p

/-- `PrimaryParent` (lines 138-140): the first parent, if any. -/
def primaryParent (ps : List NodeV) : Option NodeV := ps.head?

/-- The `Node::Node` constructor (lines 249-261): `driver_host_` is copied
from the primary parent when one exists. -/
def nodeCtor (syms : List (String × Nat)) (ps : List NodeV) : NodeV :=
  match primaryParent ps with
  | Option.none => .mk Option.none syms ps
  | Option.some pp => .mk pp.driverHost syms ps

/-- `Node::symbols` (lines 279-290): non-empty only when colocated with the
primary parent; a composite node (more than one parent) exposes the primary
parent's symbols. -/
def symbols (n : NodeV) : List (String × Nat) :=
  match primaryParent n.parents with
  | Option.none => []
  | Option.some pp =>
    if pp.driverHost = n.driverHost then
      if n.parents.length > 1 then pp.symbols_ else n.symbols_
    else []

end NodeV

/-! ## DriverComponent::StopDriver (driver_runner.cc lines 204-214) -/
/-- The `stop_in_progress_` state of a `DriverComponent`. -/
structure DriverComponentSt where
  stopInProgress : Bool
deriving DecidableEq, Repr

/-- `DriverComponent::StopDriver`: returns the new state and whether a `Stop`
request was sent over the driver channel this call. -/
def stopDriver (s : DriverComponentSt) : DriverComponentSt × Bool :=
  if s.stopInProgress then (s, false)
  else (⟨true⟩, true)

/-- Total number of `Stop` requests sent by `n` consecutive `StopDriver`
invocations from state `s`. -/
def stopDriverRuns : Nat → DriverComponentSt → DriverComponentSt × Nat
  | 0, s => (s, 0)
  | n + 1, s =>
    let (s', sent) := stopDriver s
    let (s'', k) := stopDriverRuns n s'
    (s'', (if sent then 1 else 0) + k)

/-! ## DriverRunner::Start (driver_runner.cc lines 646-731)

The request's numbered handles are embedded with the handle's identity (koid)
standing for a valid handle (`zx_object_get_info` on a valid event handle is
modelled as succeeding); an invalid handle (`!handles[0].handle`) is
`Option.none`.  `driver_args_` is the pending koid-to-node map. -/
structure HandleInfo where
  handle : Option Nat      -- `Option.some koid` for a valid handle
  id : Nat
deriving DecidableEq, Repr

structure StartInfo where
  numberedHandles : Option (List HandleInfo)
  colocate : Bool          -- ProgramValue(program, "colocate") == "true"
deriving DecidableEq, Repr

/-- Outcome of the validation part of `DriverRunner::Start`: either the
connection is closed with a status, or the request proceeds for `nodeId`. -/
inductive StartOutcome where
  | closed (status : Int)
  | proceeds (nodeId : Nat)
deriving DecidableEq, Repr

/-- `DriverRunner::Start` (lines 646-692) up to and including the colocation
check, returning the outcome and the updated `driver_args_` map. -/
def runnerStart (driverArgs : List (Nat × Nat)) (rootId : Nat) (req : StartInfo) :
    StartOutcome × List (Nat × Nat) :=
  match req.numberedHandles with
  | Option.none => (.closed ZX_ERR_INVALID_ARGS, driverArgs)
  | Option.some handles =>
    -- handles.count() != 1 || !handles[0].handle || handles[0].id != kTokenId
    match handles with
    | [hi] =>
      match hi.handle, hi.id == kTokenId with
      | Option.none, _ => (.closed ZX_ERR_INVALID_ARGS, driverArgs)
      | Option.some _, false => (.closed ZX_ERR_INVALID_ARGS, driverArgs)
      | Option.some koid, true =>
        match (driverArgs.find? fun kv => kv.1 == koid) with
        | Option.none => (.closed ZX_ERR_UNAVAILABLE, driverArgs)
        | Option.some kv =>
          -- driver_args_.erase(it): the mapping is consumed before the
          -- colocation check
          let remaining := driverArgs.filter fun kv' => ¬ kv'.1 == koid
          if req.colocate && kv.2 == rootId then
            (.closed ZX_ERR_INVALID_ARGS, remaining)
          else
            (.proceeds kv.2, remaining)
    | _ => (.closed ZX_ERR_INVALID_ARGS, driverArgs)

/-! ## DriverRunner::Bind match callback (driver_runner.cc lines 733-812) -/
/-- A `MatchedDriverInfo` table: only the `url` field is consulted here. -/
structure DriverInfo where
  url : Option String
deriving DecidableEq, Repr

/-- The `MatchedDriver` union: a normal driver, a composite driver (whose
`driver_info` field is optional), or any other variant. -/
inductive MatchedDriver where
  | driver (info : DriverInfo)
  | compositeDriver (driverInfo : Option DriverInfo)
  | otherVariant
deriving DecidableEq, Repr

/-- Result delivered to the `MatchDriver` callback: a transport failure, an
application-level error status, or a matched driver. -/
inductive MatchResult where
  | transportError
  | errStatus (s : Int)
  | matched (d : MatchedDriver)
deriving DecidableEq, Repr

/-- What the match callback decides to do with the node. -/
inductive BindAction where
  | orphanNode
  | startNormal (url : String)
  | startComposite (info : DriverInfo)
deriving DecidableEq, Repr

/-- The body of the match callback of `DriverRunner::Bind` (lines 734-810),
reduced to the decision it makes for the (still live) node. -/
def bindMatchAction (res : MatchResult) : BindAction :=
  match res with
  | .transportError => .orphanNode
  | .errStatus _ => .orphanNode
  | .matched d =>
    match d with
    | .otherVariant => .orphanNode
    | .compositeDriver Option.none => .orphanNode
    | .compositeDriver (Option.some info) =>
      match info.url with
      | Option.none => .orphanNode
      | Option.some _ => .startComposite info
    | .driver info =>
      match info.url with
      | Option.none => .orphanNode
      | Option.some u => .startNormal u

/-- Effect of a bind action on the orphaned-node list: `orphaned_nodes_` gets
the node appended and no driver start is requested; `Bind` itself returns
nothing to its caller in either case. -/
def applyBindAction (orphans : List Nat) (nodeId : Nat) :
    BindAction → List Nat × Option String
  | .orphanNode => (orphans ++ [nodeId], Option.none)
  | .startNormal u => (orphans, Option.some u)
  | .startComposite info => (orphans, info.url)

/-! ## Node::Remove (driver_runner.cc lines 379-430)

The node graph is embedded as an id-indexed store; `Remove` is embedded as a
fuel-indexed recursion (the fuel only bounds the re-entrant call depth: every
run of interest is reproduced by a large enough fuel, and exhausted fuel stops
without effects, which is sound for the at-most-once properties proved here).
Each observable effect is logged: `unlink p c` when `c` is actually erased
from `p`'s children list, `stopReq d` when a `Stop` request is sent to driver
`d`, and `parentRemove p c` when `c`'s unlink loop invokes `p->Remove()`. -/
/-- Per-node state read and written by `Node::Remove`. -/
structure RNode where
  parents : List Nat
  children : List Nat
  removal : Bool          -- removal_in_progress_
  hasBinder : Bool        -- driver_binder_ != nullptr
  driver : Option Nat     -- driver_component_
deriving DecidableEq, Repr

/-- The world: nodes and the `stop_in_progress_` flag of each
`DriverComponent`, both indexed by id. -/
structure RWorld where
  rnodes : List RNode
  rdrivers : List Bool
deriving DecidableEq, Repr

/-- Events logged by the embedded `Remove`. -/
inductive REvent where
  | unlink (p c : Nat)
  | stopReq (d : Nat)
  | parentRemove (p c : Nat)
deriving DecidableEq, Repr

def RWorld.setNode (w : RWorld) (i : Nat) (nd : RNode) : RWorld :=
  { w with rnodes := w.rnodes.set i nd }

/-- The children list of node `p` (empty for an out-of-range id). -/
def RWorld.childrenOf (w : RWorld) (p : Nat) : List Nat :=
  match w.rnodes[p]? with
  | Option.none => []
  | Option.some nd => nd.children

/-- `DriverComponent::StopDriver` (lines 204-214) acting on the world: sends a
`Stop` request only when `stop_in_progress_` is not yet set. -/
def stopDriverW (w : RWorld) (d : Nat) : RWorld × Bool :=
  match w.rdrivers[d]? with
  | Option.none => (w, false)
  | Option.some flag =>
    if flag then (w, false)
    else ({ w with rdrivers := w.rdrivers.set d true }, true)

mutual

/-- `Node::Remove` (lines 379-430). -/
def removeNode (fuel : Nat) (w : RWorld) (n : Nat) : RWorld × List REvent :=
  match fuel with
  | 0 => (w, [])
  | fuel' + 1 =>
    match w.rnodes[n]? with
    | Option.none => (w, [])
    | Option.some nd =>
      -- removal_in_progress_ = true; driver_binder_ = nullptr (lines 380-384)
      let w1 := w.setNode n { nd with removal := true, hasBinder := false }
      -- ask children to remove themselves (lines 387-393); the
      -- advance-before-recurse iteration is embedded as recursion over the
      -- snapshot of the children list taken at loop entry
      let r2 := removeKids fuel' w1 nd.children
      match r2.1.rnodes[n]? with
      | Option.none => r2
      | Option.some nd1 =>
        -- if (!children_.empty()) return; (lines 397-399)
        if nd1.children ≠ [] then r2
        else
          match nd1.driver with
          | Option.some d =>
            -- (*driver_component_)->StopDriver(); return; (lines 401-406)
            let r3 := stopDriverW r2.1 d
            (r3.1, r2.2 ++ if r3.2 then [.stopReq d] else [])
          | Option.none =>
            -- erase ourselves from each parent, cascading (lines 410-422)
            let r3 := unlinkParents fuel' r2.1 n nd1.parents.length nd1.parents
            -- parents_.clear() (line 424)
            let w4 :=
              match r3.1.rnodes[n]? with
              | Option.none => r3.1
              | Option.some nd2 => r3.1.setNode n { nd2 with parents := [] }
            (w4, r2.2 ++ r3.2)
termination_by (fuel, 0, 0)

/-- The children loop of `Node::Remove` (lines 387-393). -/
def removeKids (fuel : Nat) (w : RWorld) (cs : List Nat) : RWorld × List REvent :=
  match cs with
  | [] => (w, [])
  | c :: cs' =>
    let r1 := removeNode fuel w c
    let r2 := removeKids fuel r1.1 cs'
    (r2.1, r1.2 ++ r2.2)
termination_by (fuel, 1, cs.length)

/-- The unlink loop of `Node::Remove` (lines 412-422): erase `n` from the
parent's children (`children.erase(std::find(...))` removes one occurrence
when present), then cascade `parent->Remove()` when the parent was waiting on
its last child or when `n` is a composite node (`plen` is
`parents_.size()`). -/
def unlinkParents (fuel : Nat) (w : RWorld) (n plen : Nat) (ps : List Nat) :
    RWorld × List REvent :=
  match ps with
  | [] => (w, [])
  | p :: ps' =>
    match w.rnodes[p]? with
    | Option.none => unlinkParents fuel w n plen ps'
    | Option.some pd =>
      let present := n ∈ pd.children
      let pd1 := { pd with children := pd.children.erase n }
      let w1 := w.setNode p pd1
      let l0 : List REvent := if present then [.unlink p n] else []
      if (pd1.removal ∧ pd1.children = []) ∨ 1 < plen then
        let r2 := removeNode fuel w1 p
        let r3 := unlinkParents fuel r2.1 n plen ps'
        (r3.1, l0 ++ .parentRemove p n :: (r2.2 ++ r3.2))
      else
        let r3 := unlinkParents fuel w1 n plen ps'
        (r3.1, l0 ++ r3.2)
termination_by (fuel, 1, ps.length)

end

/-- Potential of a driver's stop flag: `1` while a first `Stop` request can
still be sent, `0` once `stop_in_progress_` is set (it is never reset). -/
def stopPot (w : RWorld) (d : Nat) : Nat :=
  if w.rdrivers[d]? = Option.some false then 1 else 0

/-- Accounting between a pre-world and the result of a removal run: node-store
size is preserved, and for every parent/child pair resp. driver the emitted
events are paid for by a decrease of the child's multiplicity resp. of the
stop potential.  Since removal never adds children and never resets a stop
flag, these inequalities compose across successive runs. -/
def RAcc (w : RWorld) (r : RWorld × List REvent) : Prop :=
  r.1.rnodes.length = w.rnodes.length ∧
  (∀ p c, r.2.count (.unlink p c) + (r.1.childrenOf p).count c ≤
      (w.childrenOf p).count c) ∧
  (∀ d, r.2.count (.stopReq d) + stopPot r.1 d ≤ stopPot w d)

/-- An event about the pair `(p, n)`: either `n` was erased from `p`'s
children, or `n`'s unlink loop invoked `p->Remove()`. -/
def touches (p n : Nat) (l : List REvent) : Prop :=
  REvent.unlink p n ∈ l ∨ REvent.parentRemove p n ∈ l

/-- Concrete two-node world for the idempotence witness: node 0 owns node 1,
node 1 is bound to driver 0 whose stop flag is clear. -/
def C3wit : RWorld :=
  ⟨[⟨[], [1], false, true, Option.none⟩, ⟨[0], [], false, true, Option.some 0⟩],
   [false]⟩

/-- Concrete world for the cascade witness: node 0 is mid-removal
(`removal_in_progress_` set) and node 1 is its sole remaining child. -/
def C4wit : RWorld :=
  ⟨[⟨[], [1], true, false, Option.none⟩, ⟨[0], [], false, true, Option.none⟩], []⟩

/-! Helper lemmas for the AddChild validation claim. -/
/-- An offer that passes both validation lambdas of AddChild. -/
def offerOk (o : OfferArg) : Prop :=
  ∃ d, o = Option.some d ∧ d.sourceName.isSome = true ∧
    d.hasSource = false ∧ d.hasTarget = false

/-- A symbol entry that passes the per-entry checks of AddChild relative to
the set of names seen so far. -/
def symbolOk (seen : List String) (s : SymbolArg) : Prop :=
  ∃ nm a, s.symName = Option.some nm ∧ s.address = Option.some a ∧ nm ∉ seen

/-! ## Topology reachability model (Node graph, AddChild, composite creation,
StartDriver collection classification, Remove)

Nodes are stored id-indexed in creation order; node 0 is the root created by
the `DriverRunner` constructor (line 555).  Offers are carried as their
source-name payloads; the parts of each operation that touch the topology are
embedded as a step relation. -/
/-- Topology-level view of a `Node`. -/
structure TNode where
  tname : String
  parents : List Nat
  children : List Nat
  collection : Collection
  hasNodeRef : Bool     -- a fdf::Node server is bound (line 536 / line 709)
  pending : Bool        -- a start token for it is in driver_args_ (line 642)
  viaComposite : Bool   -- created by CreateCompositeNode (line 838)
  alive : Bool
  hasBinder : Bool      -- driver_binder_ != nullptr
  offers : List String
deriving DecidableEq, Repr

structure TopoWorld where
  tnodes : List TNode
deriving DecidableEq, Repr

def TopoWorld.setT (w : TopoWorld) (i : Nat) (nd : TNode) : TopoWorld :=
  ⟨w.tnodes.set i nd⟩

/-- Children of node `p` (empty for an out-of-range id). -/
def TopoWorld.childrenT (w : TopoWorld) (p : Nat) : List Nat :=
  match w.tnodes[p]? with
  | Option.none => []
  | Option.some nd => nd.children

/-- The world at process start: only the root node, with no collection. -/
def initWorld : TopoWorld :=
  ⟨[⟨"root", [], [], Collection.none, false, false, false, true, true, []⟩]⟩

/-- `kBootScheme` (line 42) and the collection classification of `StartDriver`
(line 635): boot scheme prefix chooses the boot collection, anything else the
package collection. -/
def classifyCollection (url : String) : Collection :=
  if List.isPrefixOf "fuchsia-boot://".data url.data then Collection.boot
  else Collection.package

/-- The ancestor walk of `Node::CreateOffers` (lines 325-328): starting from a
parent, follow primary parents while the collection is `kNone`.  The loop
dereferences `source_node->collection_` before testing `source_node` for
null, so walking past a parentless uncollectioned node (or to a missing
node) is a null dereference, embedded as `Option.none`. -/
def sourceWalk (w : TopoWorld) : Nat → Nat → Option Nat
  | 0, _ => Option.none
  | fuel + 1, i =>
    match w.tnodes[i]? with
    | Option.none => Option.none
    | Option.some nd =>
      if nd.collection ≠ Collection.none then Option.some i
      else
        match nd.parents.head? with
        | Option.some p => sourceWalk w fuel p
        | Option.none => Option.none

/-- The primary-parent chain visited by `TopoName` and the offer-source walk,
in walk order (self first). -/
def primaryChain (w : TopoWorld) : Nat → Nat → List Nat
  | 0, _ => []
  | fuel + 1, i =>
    match w.tnodes[i]? with
    | Option.none => []
    | Option.some nd =>
      i :: (match nd.parents.head? with
            | Option.some p => primaryChain w fuel p
            | Option.none => [])

def nameOf (w : TopoWorld) (j : Nat) : String :=
  match w.tnodes[j]? with
  | Option.none => ""
  | Option.some nd => nd.tname

/-- `Node::TopoName` (lines 312-318): dot-joined names along the primary
chain, outermost ancestor first. -/
def topoName (w : TopoWorld) (fuel i : Nat) : String :=
  String.intercalate "." (((primaryChain w fuel i).map (nameOf w)).reverse)

structure SourceRef where
  srcName : String
  srcCollection : String
deriving DecidableEq, Repr

/-- The collection stored at a node id (`kNone` for a missing id). -/
def collAt (w : TopoWorld) (j : Nat) : Collection :=
  match w.tnodes[j]? with
  | Option.none => Collection.none
  | Option.some nd => nd.collection

/-- The offers contributed through one parent `p` (lines 324-346): resolve
the source node by the ancestor walk, then tag either the node's own offers
(single parent) or that parent's offers (composite) with the source's
topological name and collection name. -/
def offersFor (w : TopoWorld) (nd : TNode) (p : Nat) :
    Option (List (String × SourceRef)) :=
  match sourceWalk w (p + 1) p with
  | Option.none => Option.none
  | Option.some s =>
    match w.tnodes[s]? with
    | Option.none => Option.none
    | Option.some snd =>
      let src : SourceRef := ⟨topoName w (s + 1) s,
        CollectionName snd.collection⟩
      let payload := if nd.parents.length = 1 then nd.offers
                     else (match w.tnodes[p]? with
                           | Option.some pd => pd.offers
                           | Option.none => [])
      Option.some (payload.map fun o => (o, src))

/-- Concatenation of the per-parent results, `Option.none` if any part
failed. -/
def collectParts :
    List (Option (List (String × SourceRef))) →
      Option (List (String × SourceRef))
  | [] => Option.some []
  | x :: xs =>
    match x with
    | Option.none => Option.none
    | Option.some l =>
      match collectParts xs with
      | Option.none => Option.none
      | Option.some ls => Option.some (l ++ ls)

/-- `Node::CreateOffers` (lines 320-349): for each parent, resolve the source
node by the ancestor walk; a normal node contributes its own offers, a
composite node each parent's offers; each offer gets the source node's
topological name and collection name as its source `ChildRef`; results are
concatenated in parent-list order.  `Option.none` marks the null dereference
of a failed walk. -/
def createOffers (w : TopoWorld) (n : Nat) : Option (List (String × SourceRef)) :=
  match w.tnodes[n]? with
  | Option.none => Option.none
  | Option.some nd => collectParts (nd.parents.map (offersFor w nd))

/-- `Node::AddToParents` (lines 372-377) for a batch of parents: append the
new node id to each listed parent's children. -/
def attachAll (newId : Nat) : List TNode → List Nat → List TNode
  | l, [] => l
  | l, p :: ps =>
    attachAll newId
      (match l[p]? with
       | Option.some pd => l.set p { pd with children := pd.children ++ [newId] }
       | Option.none => l) ps

/-- The unlink loop of `Node::Remove` at the topology level: erase the node
from each parent's children list. -/
def detachAll (n : Nat) : List TNode → List Nat → List TNode
  | l, [] => l
  | l, p :: ps =>
    detachAll n
      (match l[p]? with
       | Option.some pd => l.set p { pd with children := pd.children.erase n }
       | Option.none => l) ps

/-- One topology step.  Each constructor mirrors the topology-visible effect
of one source operation, with the preconditions under which the code invokes
it: `StartDriver` classifies and stores the collection of a live node and
records a pending start token; `DriverRunner::Start` consumes the token and
binds the node server; `AddChild` requires a bound node server on the target
(requests arrive over its `fdf::Node` channel), a live un-removed target, and
the name validation of lines 440-459; composite creation attaches a fresh
node named "composite" to the resolved (distinct, non-root, live) slot nodes
with no duplicate-name check; `Remove` clears the binder first and unlinks
only once the children list is empty (line 397). -/
inductive TStep : TopoWorld → TopoWorld → Prop where
  | startDriver (w : TopoWorld) (n : Nat) (url : String) (nd : TNode)
      (hn : w.tnodes[n]? = Option.some nd) (halive : nd.alive = true) :
      TStep w (w.setT n
        { nd with collection := classifyCollection url, pending := true })
  | runnerStart (w : TopoWorld) (n : Nat) (nd : TNode)
      (hn : w.tnodes[n]? = Option.some nd) (hpend : nd.pending = true) :
      TStep w (w.setT n { nd with pending := false, hasNodeRef := true })
  | addChild (w : TopoWorld) (p : Nat) (nd : TNode) (name : String)
      (deferred : Bool) (offers : List String)
      (hp : w.tnodes[p]? = Option.some nd) (halive : nd.alive = true)
      (href : nd.hasNodeRef = true) (hbind : nd.hasBinder = true)
      (hdot : '.' ∉ name.data)
      (hname : ∀ c ∈ nd.children, ∀ cd, w.tnodes[c]? = Option.some cd →
        cd.tname ≠ name) :
      TStep w ⟨(w.tnodes.set p
          { nd with children := nd.children ++ [w.tnodes.length] }) ++
        [⟨name, [p], [], Collection.none, deferred, false, false, true, true,
          offers⟩]⟩
  | composite (w : TopoWorld) (ps : List Nat) (hne : ps ≠ [])
      (hnodup : ps.Nodup)
      (hmem : ∀ p ∈ ps, ∃ pd, w.tnodes[p]? = Option.some pd ∧
        pd.alive = true ∧ p ≠ 0) :
      TStep w ⟨attachAll w.tnodes.length w.tnodes ps ++
        [⟨"composite", ps, [], Collection.none, false, false, true, true, true,
          []⟩]⟩
  | beginRemove (w : TopoWorld) (n : Nat) (nd : TNode)
      (hn : w.tnodes[n]? = Option.some nd) :
      TStep w (w.setT n { nd with hasBinder := false })
  | completeRemove (w : TopoWorld) (n : Nat) (nd : TNode)
      (hn : w.tnodes[n]? = Option.some nd) (halive : nd.alive = true)
      (hch : nd.children = []) :
      TStep w ⟨(detachAll n w.tnodes nd.parents).set n
        { nd with parents := [], alive := false, hasBinder := false }⟩

/-- States reachable from the initial single-root world. -/
def TReachable (w : TopoWorld) : Prop :=
  Relation.ReflTransGen TStep initWorld w

/-! ## Composite matching (driver_runner.cc lines 814-881) -/
/-- A pending composite-argument set: driver URL and the fixed-size slot
array of weak node references (`Option.none` = never set; a set slot may
have expired if its node died). -/
structure CompositeEntry where
  url : String
  slots : List (Option Nat)
deriving DecidableEq, Repr

/-- `weak_ptr::lock` on a slot: succeeds only for a set slot whose node is
still alive. -/
def lockSlot (w : TopoWorld) (s : Option Nat) : Option Nat :=
  s.bind fun i =>
    match w.tnodes[i]? with
    | Option.some nd => if nd.alive then Option.some i else Option.none
    | Option.none => Option.none

/-- The slot scan of `CreateCompositeNode` (lines 827-834): lock each slot in
index order; the first unresolved slot aborts the scan. -/
def scanSlots (w : TopoWorld) : List (Option Nat) → Option (List Nat)
  | [] => Option.some []
  | s :: ss =>
    match lockSlot w s with
    | Option.some i => (scanSlots w ss).map (fun ps => i :: ps)
    | Option.none => Option.none

/-- `DriverRunner::CreateCompositeNode` (lines 814-842), given the
composite-args entry chosen by `AddToCompositeArgs`: store the node's weak
reference in its assigned slot, scan all slots, and either signal
`ZX_ERR_NEXT` (leaving the updated pending set in place) or consume the set
and create the composite node, attached to every resolved slot node. -/
def createCompositeNode (w : TopoWorld) (entries : List CompositeEntry)
    (eIdx slotIdx nId : Nat) : TopoWorld × List CompositeEntry × Except Int Nat :=
  match entries[eIdx]? with
  | Option.none => (w, entries, .error ZX_ERR_INVALID_ARGS)
  | Option.some entry =>
    let slots' := entry.slots.set slotIdx (Option.some nId)
    let entries' := entries.set eIdx ⟨entry.url, slots'⟩
    match scanSlots w slots' with
    | Option.none => (w, entries', .error ZX_ERR_NEXT)
    | Option.some ps =>
      let newId := w.tnodes.length
      (⟨attachAll newId w.tnodes ps ++
          [⟨"composite", ps, [], Collection.none, false, false, true, true,
            true, []⟩]⟩,
       entries'.eraseIdx eIdx, .ok newId)

/-- The entry search of `AddToCompositeArgs` (lines 862-875): scan entries in
order for the composite URL; a slot-count mismatch on a matching entry is an
immediate `ZX_ERR_INVALID_ARGS`; a matching entry whose required slot has
expired is picked. -/
def findCompositeArgs (w : TopoWorld) (url : String) (numNodes nodeIndex : Nat) :
    List CompositeEntry → Nat → Except Int (Option Nat)
  | [], _ => .ok Option.none
  | e :: es, i =>
    if e.url = url then
      if e.slots.length ≠ numNodes then .error ZX_ERR_INVALID_ARGS
      else if (lockSlot w ((e.slots[nodeIndex]?).getD Option.none)).isNone then
        .ok (Option.some i)
      else findCompositeArgs w url numNodes nodeIndex es (i + 1)
    else findCompositeArgs w url numNodes nodeIndex es (i + 1)

/-- `DriverRunner::AddToCompositeArgs` (lines 844-881): validate the composite
info fields, find or create the pending entry, and return its index. -/
def addToCompositeArgs (w : TopoWorld) (entries : List CompositeEntry)
    (hasNodeIndex hasNumNodes hasDriverInfo hasUrl : Bool)
    (nodeIndex numNodes : Nat) (url : String) :
    Except Int (Nat × List CompositeEntry) :=
  if !hasNodeIndex || !hasNumNodes then .error ZX_ERR_INVALID_ARGS
  else if numNodes ≤ nodeIndex then .error ZX_ERR_INVALID_ARGS
  else if !hasDriverInfo || !hasUrl then .error ZX_ERR_INVALID_ARGS
  else
    match findCompositeArgs w url numNodes nodeIndex entries 0 with
    | .error e => .error e
    | .ok (Option.some i) => .ok (i, entries)
    | .ok Option.none =>
      .ok (entries.length,
        entries ++ [⟨url, List.replicate numNodes Option.none⟩])

/-- The parent-coherence property of reachable topologies: a live node's
parents are earlier-created, live, and list it among their children. -/
def ParentsOk (w : TopoWorld) : Prop :=
  ∀ (m : Nat) (nd : TNode), w.tnodes[m]? = Option.some nd → nd.alive = true →
    ∀ p ∈ nd.parents, p < m ∧ ∃ pd, w.tnodes[p]? = Option.some pd ∧
      pd.alive = true ∧ m ∈ pd.children

/-- Invariants of reachable topology worlds. -/
structure TInv (w : TopoWorld) : Prop where
  par : ParentsOk w
  refWalk : ∀ (m : Nat) (nd : TNode), w.tnodes[m]? = Option.some nd →
    nd.alive = true → nd.hasNodeRef = true →
    (sourceWalk w (m + 1) m).isSome = true
  selfWalk : ∀ (m : Nat) (nd : TNode), w.tnodes[m]? = Option.some nd →
    nd.alive = true → m ≠ 0 → (sourceWalk w (m + 1) m).isSome = true
  pend : ∀ (m : Nat) (nd : TNode), w.tnodes[m]? = Option.some nd →
    nd.pending = true → nd.collection ≠ Collection.none
  chOk : ∀ (p : Nat) (pd : TNode), w.tnodes[p]? = Option.some pd →
    ∀ c ∈ pd.children, ∃ cd, w.tnodes[c]? = Option.some cd ∧
      cd.alive = true ∧ p ∈ cd.parents
  sib : ∀ (p : Nat) (pd : TNode), w.tnodes[p]? = Option.some pd →
    ∀ c1 ∈ pd.children, ∀ c2 ∈ pd.children, c1 ≠ c2 →
    ∀ cd1 cd2, w.tnodes[c1]? = Option.some cd1 →
      w.tnodes[c2]? = Option.some cd2 → cd1.viaComposite = false →
      cd2.viaComposite = false → cd1.tname ≠ cd2.tname
  nodup : ∀ (p : Nat) (pd : TNode), w.tnodes[p]? = Option.some pd →
    pd.children.Nodup ∧ pd.parents.Nodup
  rootRef : ∀ rd, w.tnodes[0]? = Option.some rd → rd.children ≠ [] →
    rd.hasNodeRef = true

def C5root : TNode :=
  ⟨"root", [], [1], classifyCollection "fuchsia-boot://pkg", true, false,
    false, true, true, []⟩

def C5child : TNode :=
  ⟨"a", [0], [], Collection.none, false, false, false, true, true, ["svc"]⟩

def C5world : TopoWorld := ⟨[C5root, C5child]⟩

/-! ## Sibling names (claim C6) -/
def C6root : TNode :=
  ⟨"root", [], [1], classifyCollection "fuchsia-boot://drv", true, false,
    false, true, true, []⟩

def C6mid : TNode :=
  ⟨"a", [0], [2, 3], Collection.none, false, false, false, true, true, []⟩

def C6comp : TNode :=
  ⟨"composite", [1], [], Collection.none, false, false, true, true, true, []⟩

/-- A reachable world with two composite nodes parented to the same node:
start and bind the root, add one child, then create two composite nodes
with that child as (sole) parent. -/
def C6world : TopoWorld := ⟨[C6root, C6mid, C6comp, C6comp]⟩

def C6w2root : TNode :=
  ⟨"root", [], [1, 2], classifyCollection "fuchsia-boot://drv", true, false,
    false, true, true, []⟩

def C6childA : TNode :=
  ⟨"a", [0], [], Collection.none, false, false, false, true, true, []⟩

def C6childB : TNode :=
  ⟨"b", [0], [], Collection.none, false, false, false, true, true, []⟩

/-- A reachable world with two `AddChild` children of the root, named "a"
and "b". -/
def C6world2 : TopoWorld := ⟨[C6w2root, C6childA, C6childB]⟩

def C2A : TNode :=
  ⟨"x", [], [], Collection.package, false, false, false, true, true, []⟩

def C2B : TNode :=
  ⟨"y", [], [], Collection.package, false, false, false, true, true, []⟩

def C2w : TopoWorld := ⟨[C2A, C2B]⟩

def C2slots : List (Option Nat) := [Option.some 0, Option.some 1]

def C2entries : List CompositeEntry :=
  [⟨"u", [Option.some 0, Option.none]⟩]

def C2entries' : List CompositeEntry := [⟨"u", C2slots⟩]

theorem stopPot_le_one (w : RWorld) (d : Nat) : stopPot w d ≤ 1 := by
  unfold stopPot; split <;> simp

theorem RAcc_refl (w : RWorld) : RAcc w (w, []) := by
  refine ⟨rfl, ?_, ?_⟩ <;> intros <;> simp

theorem RAcc_trans {w : RWorld} {r s : RWorld × List REvent}
    (h1 : RAcc w r) (h2 : RAcc r.1 s) : RAcc w (s.1, r.2 ++ s.2) := by
  obtain ⟨e1, u1, d1⟩ := h1
  obtain ⟨e2, u2, d2⟩ := h2
  refine ⟨e2.trans e1, ?_, ?_⟩
  · intro p c
    have := u1 p c
    have := u2 p c
    simp only [List.count_append]
    omega
  · intro d
    have := d1 d
    have := d2 d
    simp only [List.count_append]
    omega

theorem childrenOf_setNode {w : RWorld} {n : Nat} {nd : RNode} (nd' : RNode)
    (hn : w.rnodes[n]? = Option.some nd) (hc : nd'.children = nd.children)
    (p : Nat) : (w.setNode n nd').childrenOf p = w.childrenOf p := by
  unfold RWorld.childrenOf RWorld.setNode
  by_cases hp : n = p
  · subst hp
    have hlt : n < w.rnodes.length := by
      by_contra hge
      rw [List.getElem?_eq_none (by omega)] at hn
      exact Option.noConfusion hn
    rw [List.getElem?_set_self']
    simp [hlt, hn, hc]
  · rw [List.getElem?_set_ne hp]

theorem RAcc_setNode {w : RWorld} {n : Nat} {nd : RNode} (nd' : RNode)
    (hn : w.rnodes[n]? = Option.some nd) (hc : nd'.children = nd.children) :
    RAcc w (w.setNode n nd', []) := by
  refine ⟨by simp [RWorld.setNode], ?_, ?_⟩
  · intro p c
    rw [childrenOf_setNode nd' hn hc]
    simp
  · intro d
    simp [RWorld.setNode, stopPot]

theorem stopDriverW_no_send {w : RWorld} {d : Nat}
    (h : w.rdrivers[d]? ≠ Option.some false) : stopDriverW w d = (w, false) := by
  unfold stopDriverW
  cases hd : w.rdrivers[d]? with
  | none => rfl
  | some flag => cases flag with
    | true => rfl
    | false => exact absurd hd h

theorem stopDriverW_send {w : RWorld} {d : Nat}
    (h : w.rdrivers[d]? = Option.some false) :
    stopDriverW w d = ({ w with rdrivers := w.rdrivers.set d true }, true) := by
  unfold stopDriverW
  rw [h]
  rfl

theorem RAcc_stopDriverW (w : RWorld) (d : Nat) :
    RAcc w ((stopDriverW w d).1,
      if (stopDriverW w d).2 then [REvent.stopReq d] else []) := by
  by_cases hd : w.rdrivers[d]? = Option.some false
  · rw [stopDriverW_send hd]
    have hlt : d < w.rdrivers.length := by
      by_contra hge
      rw [List.getElem?_eq_none (by omega)] at hd
      exact Option.noConfusion hd
    refine ⟨rfl, by intro p c; simp [RWorld.childrenOf], ?_⟩
    intro d'
    by_cases hdd : d = d'
    · subst hdd
      unfold stopPot
      simp only []
      rw [List.getElem?_set_self']
      simp [hlt, hd, List.count_cons, List.count_nil]
    · unfold stopPot
      simp only []
      rw [List.getElem?_set_ne hdd]
      simp [List.count_cons, List.count_nil, REvent.stopReq.injEq, hdd]
  · rw [stopDriverW_no_send hd]
    simpa using RAcc_refl w

theorem RAcc_eraseStep (w : RWorld) {p : Nat} (pd : RNode) (n : Nat)
    (hp : w.rnodes[p]? = Option.some pd) :
    RAcc w (w.setNode p { pd with children := pd.children.erase n },
      if n ∈ pd.children then [REvent.unlink p n] else []) := by
  have hlt : p < w.rnodes.length := by
    by_contra hge
    rw [List.getElem?_eq_none (by omega)] at hp
    exact Option.noConfusion hp
  refine ⟨by simp [RWorld.setNode], ?_, ?_⟩
  · intro q c
    have hpost : (w.setNode p { pd with children := pd.children.erase n }).childrenOf q =
        if p = q then pd.children.erase n else w.childrenOf q := by
      unfold RWorld.childrenOf RWorld.setNode
      by_cases hq : p = q
      · subst hq; rw [List.getElem?_set_self']; simp [hlt]
      · rw [List.getElem?_set_ne hq]; simp [hq]
    rw [hpost]
    by_cases hq : p = q
    · subst hq
      rw [if_pos rfl]
      have hch : w.childrenOf p = pd.children := by unfold RWorld.childrenOf; rw [hp]
      rw [hch, List.count_erase]
      by_cases hc : n = c
      · subst hc
        by_cases hmem : n ∈ pd.children
        · have : 0 < pd.children.count n := List.count_pos_iff.mpr hmem
          simp only [if_pos hmem]
          simp only [beq_self_eq_true, if_pos]
          simp [List.count_cons, List.count_nil]
          omega
        · simp only [if_neg hmem]
          have : pd.children.count n = 0 := List.count_eq_zero.mpr hmem
          simp [this]
      · have hbeq : (n == c) = false := beq_false_of_ne hc
        rw [hbeq]
        split <;>
          simp [List.count_cons, List.count_nil, REvent.unlink.injEq, hc]
    · rw [if_neg hq]
      split <;>
        simp [List.count_cons, List.count_nil, REvent.unlink.injEq,
          fun h : p = q => hq h]
  · intro d
    have : stopPot (w.setNode p { pd with children := pd.children.erase n }) d =
        stopPot w d := by unfold stopPot RWorld.setNode; rfl
    rw [this]
    split <;> simp

theorem RAcc_congr_log {w : RWorld} {v : RWorld} {l l' : List REvent}
    (h : RAcc w (v, l))
    (hu : ∀ p c, l'.count (REvent.unlink p c) = l.count (REvent.unlink p c))
    (hs : ∀ d, l'.count (REvent.stopReq d) = l.count (REvent.stopReq d)) :
    RAcc w (v, l') := by
  obtain ⟨e, u, s⟩ := h
  exact ⟨e, fun p c => hu p c ▸ u p c, fun d => hs d ▸ s d⟩

theorem removeKids_acc (fuel : Nat)
    (H : ∀ w n, RAcc w (removeNode fuel w n)) :
    ∀ cs w, RAcc w (removeKids fuel w cs) := by
  intro cs
  induction cs with
  | nil =>
    intro w
    simp only [removeKids]
    exact RAcc_refl w
  | cons c cs' IH =>
    intro w
    simp only [removeKids]
    exact RAcc_trans (H w c) (IH _)

theorem unlinkParents_acc (fuel : Nat)
    (H : ∀ w n, RAcc w (removeNode fuel w n)) :
    ∀ ps w n plen, RAcc w (unlinkParents fuel w n plen ps) := by
  intro ps
  induction ps with
  | nil =>
    intro w n plen
    simp only [unlinkParents]
    exact RAcc_refl w
  | cons p ps' IH =>
    intro w n plen
    simp only [unlinkParents]
    split
    · exact IH w n plen
    · rename_i pd hp
      split
      · -- cascade branch: erase, parent->Remove(), then the rest of the loop
        have A := RAcc_eraseStep w pd n hp
        have B := RAcc_trans A (H _ p)
        have C := RAcc_trans B (IH _ n plen)
        refine RAcc_congr_log C ?_ ?_ <;> intros <;>
          simp [List.count_append, List.count_cons]
      · have A := RAcc_eraseStep w pd n hp
        exact RAcc_trans A (IH _ n plen)

theorem removeNode_acc : ∀ (fuel : Nat) (w : RWorld) (n : Nat),
    RAcc w (removeNode fuel w n) := by
  intro fuel
  induction fuel with
  | zero =>
    intro w n
    simp only [removeNode]
    exact RAcc_refl w
  | succ f IH =>
    intro w n
    have Hk := removeKids_acc f IH
    have Hu := unlinkParents_acc f IH
    simp only [removeNode]
    split
    · exact RAcc_refl w
    · rename_i nd hn
      have A : RAcc w (w.setNode n { nd with removal := true, hasBinder := false }, []) :=
        RAcc_setNode { nd with removal := true, hasBinder := false } hn rfl
      have B := RAcc_trans A (Hk nd.children _)
      rw [List.nil_append] at B
      split
      · exact B
      · rename_i nd1 hn1
        split
        · exact B
        · split
          · rename_i d hd
            have C := RAcc_trans B (RAcc_stopDriverW _ d)
            exact C
          · rename_i hd
            have C := RAcc_trans B (Hu nd1.parents _ n nd1.parents.length)
            split
            · exact C
            · rename_i nd2 hn2
              have D := RAcc_trans C
                (RAcc_setNode { nd2 with parents := [] } hn2 rfl)
              refine RAcc_congr_log D ?_ ?_ <;> intros <;>
                simp [List.count_append]

theorem childrenOf_count_le {w : RWorld} {r : RWorld × List REvent}
    (h : RAcc w r) (p c : Nat) :
    (r.1.childrenOf p).count c ≤ (w.childrenOf p).count c :=
  le_trans (Nat.le_add_left _ _) (h.2.1 p c)

theorem childrenOf_nil_of_acc {w : RWorld} {r : RWorld × List REvent}
    (h : RAcc w r) {n : Nat} (hn : w.childrenOf n = []) :
    r.1.childrenOf n = [] := by
  have hz : ∀ c, (r.1.childrenOf n).count c = 0 := by
    intro c
    have := childrenOf_count_le h n c
    rw [hn] at this
    simpa using this
  cases hcl : r.1.childrenOf n with
  | nil => rfl
  | cons x xs =>
    have := hz x
    rw [hcl] at this
    simp [List.count_cons] at this

theorem stopDriverW_rnodes (w : RWorld) (d : Nat) :
    (stopDriverW w d).1.rnodes = w.rnodes := by
  unfold stopDriverW
  cases hd : w.rdrivers[d]? with
  | none => rfl
  | some flag => cases flag <;> rfl

theorem getElem?_setNode_self {w : RWorld} {n : Nat} {nd : RNode}
    (hn : w.rnodes[n]? = Option.some nd) (nd' : RNode) :
    (w.setNode n nd').rnodes[n]? = Option.some nd' := by
  have hlt : n < w.rnodes.length := by
    by_contra hge
    rw [List.getElem?_eq_none (by omega)] at hn
    exact Option.noConfusion hn
  unfold RWorld.setNode
  rw [List.getElem?_set_self']
  simp [hlt]

theorem getElem?_setNode_ne {w : RWorld} {n m : Nat} (nd' : RNode)
    (h : n ≠ m) : (w.setNode n nd').rnodes[m]? = w.rnodes[m]? := by
  unfold RWorld.setNode
  rw [List.getElem?_set_ne h]

theorem touches_append {p n : Nat} {l l' : List REvent} :
    touches p n (l ++ l') ↔ touches p n l ∨ touches p n l' := by
  unfold touches
  simp [List.mem_append]
  tauto

theorem not_touches_nil (p n : Nat) : ¬ touches p n [] := by
  simp [touches]

/-! Step equations for the embedded `Remove`, one per control-flow branch. -/
theorem removeNode_zero (w : RWorld) (n : Nat) : removeNode 0 w n = (w, []) := by
  simp [removeNode]

theorem removeNode_succ_dead {w : RWorld} {n : Nat} (f : Nat)
    (hn : w.rnodes[n]? = Option.none) : removeNode (f + 1) w n = (w, []) := by
  rw [removeNode, hn]

theorem removeKids_nil (fuel : Nat) (w : RWorld) : removeKids fuel w [] = (w, []) := by
  simp [removeKids]

theorem removeKids_cons (fuel : Nat) (w : RWorld) (c : Nat) (cs : List Nat) :
    removeKids fuel w (c :: cs) =
      ((removeKids fuel (removeNode fuel w c).1 cs).1,
        (removeNode fuel w c).2 ++ (removeKids fuel (removeNode fuel w c).1 cs).2) := by
  simp [removeKids]

theorem unlinkParents_nil (fuel : Nat) (w : RWorld) (n plen : Nat) :
    unlinkParents fuel w n plen [] = (w, []) := by
  simp [unlinkParents]

theorem unlinkParents_cons_dead {w : RWorld} {p0 : Nat} (fuel n plen : Nat)
    (ps : List Nat) (hp : w.rnodes[p0]? = Option.none) :
    unlinkParents fuel w n plen (p0 :: ps) = unlinkParents fuel w n plen ps := by
  rw [unlinkParents, hp]

theorem unlinkParents_cons_cascade {w : RWorld} {p0 : Nat} {pd : RNode}
    (fuel n plen : Nat) (ps : List Nat) (hp : w.rnodes[p0]? = Option.some pd)
    (hcond : (pd.removal = true ∧ pd.children.erase n = []) ∨ 1 < plen) :
    unlinkParents fuel w n plen (p0 :: ps) =
      (let w1 := w.setNode p0 { pd with children := pd.children.erase n }
       let r2 := removeNode fuel w1 p0
       let r3 := unlinkParents fuel r2.1 n plen ps
       (r3.1, (if n ∈ pd.children then [REvent.unlink p0 n] else []) ++
          REvent.parentRemove p0 n :: (r2.2 ++ r3.2))) := by
  rw [unlinkParents, hp]
  simp only []
  rw [if_pos]
  rcases hcond with ⟨h1, h2⟩ | h
  · exact Or.inl ⟨by simp [h1], by simp [h2]⟩
  · exact Or.inr h

theorem unlinkParents_cons_quiet {w : RWorld} {p0 : Nat} {pd : RNode}
    (fuel n plen : Nat) (ps : List Nat) (hp : w.rnodes[p0]? = Option.some pd)
    (hcond : ¬ ((pd.removal = true ∧ pd.children.erase n = []) ∨ 1 < plen)) :
    unlinkParents fuel w n plen (p0 :: ps) =
      (let w1 := w.setNode p0 { pd with children := pd.children.erase n }
       let r3 := unlinkParents fuel w1 n plen ps
       (r3.1, (if n ∈ pd.children then [REvent.unlink p0 n] else []) ++ r3.2)) := by
  rw [unlinkParents, hp]
  simp only []
  rw [if_neg]
  intro hor
  apply hcond
  rcases hor with ⟨h1, h2⟩ | h
  · exact Or.inl ⟨by simpa using h1, by simpa using h2⟩
  · exact Or.inr h

theorem removeNode_succ_live {w : RWorld} {n : Nat} {nd : RNode} (f : Nat)
    (hn : w.rnodes[n]? = Option.some nd) :
    removeNode (f + 1) w n =
      (let w1 := w.setNode n { nd with removal := true, hasBinder := false }
       let r2 := removeKids f w1 nd.children
       match r2.1.rnodes[n]? with
       | Option.none => r2
       | Option.some nd1 =>
         if nd1.children ≠ [] then r2
         else
           match nd1.driver with
           | Option.some d =>
             let r3 := stopDriverW r2.1 d
             (r3.1, r2.2 ++ if r3.2 then [REvent.stopReq d] else [])
           | Option.none =>
             let r3 := unlinkParents f r2.1 n nd1.parents.length nd1.parents
             let w4 :=
               match r3.1.rnodes[n]? with
               | Option.none => r3.1
               | Option.some nd2 => r3.1.setNode n { nd2 with parents := [] }
             (w4, r2.2 ++ r3.2)) := by
  rw [removeNode, hn]

theorem touches_cons {p n : Nat} {e : REvent} {l : List REvent} :
    touches p n (e :: l) ↔
      (e = REvent.unlink p n ∨ e = REvent.parentRemove p n) ∨ touches p n l := by
  unfold touches
  simp [List.mem_cons]
  tauto

theorem not_touches_stop (p n d : Nat) (b : Bool) :
    ¬ touches p n (if b then [REvent.stopReq d] else []) := by
  cases b <;> simp [touches]

theorem touches_l0 {p n p0 n' : Nat} {c : Prop} [Decidable c]
    (h : touches p n (if c then [REvent.unlink p0 n'] else [])) :
    p = p0 ∧ n = n' := by
  split at h <;> simp [touches] at h
  omega

theorem childrenOf_stopDriverW (w : RWorld) (d n : Nat) :
    (stopDriverW w d).1.childrenOf n = w.childrenOf n := by
  unfold RWorld.childrenOf
  rw [stopDriverW_rnodes]

/-- A `(p, n)` event is only ever emitted by `n`'s own unlink phase, which the
code reaches only behind the `children_.empty()` guard; children lists never
grow during removal, so after any removal run that logged such an event, `n`'s
children list is empty. -/
theorem removeNode_compl : ∀ (fuel : Nat) (w : RWorld) (m p n : Nat),
    touches p n (removeNode fuel w m).2 →
    (removeNode fuel w m).1.childrenOf n = [] := by
  intro fuel
  induction fuel with
  | zero =>
    intro w m p n h
    rw [removeNode_zero] at h
    exact absurd h (not_touches_nil p n)
  | succ f IH =>
    have Hkids : ∀ cs w p n, touches p n (removeKids f w cs).2 →
        (removeKids f w cs).1.childrenOf n = [] := by
      intro cs
      induction cs with
      | nil =>
        intro w p n h
        rw [removeKids_nil] at h
        exact absurd h (not_touches_nil p n)
      | cons c cs' IHk =>
        intro w p n h
        rw [removeKids_cons] at h ⊢
        simp only [] at h ⊢
        rcases touches_append.mp h with h1 | h2
        · exact childrenOf_nil_of_acc
            (removeKids_acc f (removeNode_acc f) cs' _) (IH w c p n h1)
        · exact IHk _ p n h2
    have Hunlink : ∀ ps w n' plen p n, w.childrenOf n' = [] →
        touches p n (unlinkParents f w n' plen ps).2 →
        (unlinkParents f w n' plen ps).1.childrenOf n = [] := by
      intro ps
      induction ps with
      | nil =>
        intro w n' plen p n _ h
        rw [unlinkParents_nil] at h
        exact absurd h (not_touches_nil p n)
      | cons p0 ps' IHu =>
        intro w n' plen p n hn' h
        cases hp0 : w.rnodes[p0]? with
        | none =>
          rw [unlinkParents_cons_dead f n' plen ps' hp0] at h ⊢
          exact IHu w n' plen p n hn' h
        | some pd =>
          have hw1acc := RAcc_eraseStep w pd n' hp0
          have hw1nil :
              ((w.setNode p0 { pd with children := pd.children.erase n' })).childrenOf n' = [] :=
            childrenOf_nil_of_acc hw1acc hn'
          by_cases hcond :
              (pd.removal = true ∧ pd.children.erase n' = []) ∨ 1 < plen
          · rw [unlinkParents_cons_cascade f n' plen ps' hp0 hcond] at h ⊢
            simp only [] at h ⊢
            have hr2nil :
                (removeNode f (w.setNode p0 { pd with children := pd.children.erase n' }) p0).1.childrenOf n' = [] :=
              childrenOf_nil_of_acc (removeNode_acc f _ _) hw1nil
            rcases touches_append.mp h with h1 | h2
            · -- the event is about (p0, n'): n = n' and the children list of
              -- n' is already empty before the unlink loop
              obtain ⟨-, hnn'⟩ := touches_l0 h1
              subst hnn'
              exact childrenOf_nil_of_acc
                (unlinkParents_acc f (removeNode_acc f) ps' _ n plen) hr2nil
            · rcases touches_cons.mp h2 with he | h3
              · have hnn' : n = n' := by
                  rcases he with he | he
                  · exact absurd he (by simp)
                  · cases he; rfl
                subst hnn'
                exact childrenOf_nil_of_acc
                  (unlinkParents_acc f (removeNode_acc f) ps' _ n plen) hr2nil
              · rcases touches_append.mp h3 with h4 | h5
                · have := IH _ p0 p n h4
                  exact childrenOf_nil_of_acc
                    (unlinkParents_acc f (removeNode_acc f) ps' _ n' plen) this
                · exact IHu _ n' plen p n hr2nil h5
          · rw [unlinkParents_cons_quiet f n' plen ps' hp0 hcond] at h ⊢
            simp only [] at h ⊢
            rcases touches_append.mp h with h1 | h2
            · obtain ⟨-, hnn'⟩ := touches_l0 h1
              subst hnn'
              exact childrenOf_nil_of_acc
                (unlinkParents_acc f (removeNode_acc f) ps' _ n plen) hw1nil
            · exact IHu _ n' plen p n hw1nil h2
    intro w m p n h
    cases hm : w.rnodes[m]? with
    | none =>
      rw [removeNode_succ_dead f hm] at h
      exact absurd h (not_touches_nil p n)
    | some nd =>
      rw [removeNode_succ_live f hm] at h ⊢
      simp only [] at h ⊢
      cases hm1 : (removeKids f
          (w.setNode m { nd with removal := true, hasBinder := false })
          nd.children).1.rnodes[m]? with
      | none =>
        simp only [hm1] at h ⊢
        exact Hkids _ _ p n h
      | some nd1 =>
        simp only [hm1] at h ⊢
        by_cases hch : nd1.children = []
        · simp only [hch, ne_eq, not_true_eq_false, if_false] at h ⊢
          cases hd : nd1.driver with
          | some d =>
            simp only [hd] at h ⊢
            rcases touches_append.mp h with h1 | h2
            · rw [childrenOf_stopDriverW]
              exact Hkids _ _ p n h1
            · exact absurd h2 (not_touches_stop p n d _)
          | none =>
            simp only [hd] at h ⊢
            have hmid : (removeKids f
                (w.setNode m { nd with removal := true, hasBinder := false })
                nd.children).1.childrenOf m = nd1.children := by
              unfold RWorld.childrenOf
              rw [hm1]
            have hfin : (unlinkParents f (removeKids f
                (w.setNode m { nd with removal := true, hasBinder := false })
                nd.children).1 m nd1.parents.length nd1.parents).1.childrenOf n = [] := by
              rcases touches_append.mp h with h1 | h2
              · exact childrenOf_nil_of_acc
                  (unlinkParents_acc f (removeNode_acc f) nd1.parents _ m nd1.parents.length)
                  (Hkids _ _ p n h1)
              · exact Hunlink nd1.parents _ m nd1.parents.length p n
                  (hmid.trans hch) h2
            cases hm2 : (unlinkParents f (removeKids f
                (w.setNode m { nd with removal := true, hasBinder := false })
                nd.children).1 m nd1.parents.length nd1.parents).1.rnodes[m]? with
            | none =>
              simp only [hm2]
              exact hfin
            | some nd2 =>
              simp only [hm2]
              rw [childrenOf_setNode { nd2 with parents := [] } hm2 rfl]
              exact hfin
        · simp only [if_pos hch] at h ⊢
          exact Hkids _ _ p n h

/-- A second `Remove` on a fully unlinked node (no children, no parents, no
bound driver) performs no observable action: the `children_` loop is empty,
the unlink loop is empty, and nothing is logged. -/
theorem removeNode_silent_completed {w : RWorld} {n : Nat} {nd : RNode}
    (fuel : Nat) (hn : w.rnodes[n]? = Option.some nd) (hch : nd.children = [])
    (hpar : nd.parents = []) (hdr : nd.driver = Option.none) :
    (removeNode fuel w n).2 = [] := by
  cases fuel with
  | zero => rw [removeNode_zero]
  | succ f =>
    rw [removeNode_succ_live f hn]
    simp only [hch, removeKids_nil, getElem?_setNode_self hn, hdr, hpar,
      unlinkParents_nil]
    simp

/-- A second `Remove` on a childless node whose bound driver has already been
asked to stop is silent: `StopDriver` is a no-op once `stop_in_progress_` is
set, and the node never reaches the unlink phase. -/
theorem removeNode_silent_stopped {w : RWorld} {n d : Nat} {nd : RNode}
    (fuel : Nat) (hn : w.rnodes[n]? = Option.some nd) (hch : nd.children = [])
    (hdr : nd.driver = Option.some d)
    (hflag : w.rdrivers[d]? = Option.some true) :
    (removeNode fuel w n).2 = [] := by
  cases fuel with
  | zero => rw [removeNode_zero]
  | succ f =>
    rw [removeNode_succ_live f hn]
    simp only [hch, removeKids_nil, getElem?_setNode_self hn, hdr]
    rw [if_neg (by simp)]
    rw [stopDriverW_no_send (by simp [RWorld.setNode, hflag])]
    simp

theorem unlinkParents_single_mem {w : RWorld} {n p : Nat} {pd : RNode}
    (fuel plen : Nat) (hp : w.rnodes[p]? = Option.some pd)
    (hrem : pd.removal = true) (hemp : pd.children.erase n = []) :
    REvent.parentRemove p n ∈ (unlinkParents fuel w n plen [p]).2 := by
  rw [unlinkParents_cons_cascade fuel n plen [] hp (Or.inl ⟨hrem, hemp⟩)]
  simp [List.mem_append]

theorem unlinkParents_mem_all (fuel : Nat) :
    ∀ (ps : List Nat) (w : RWorld) (n plen : Nat), 1 < plen →
    ∀ p ∈ ps, p < w.rnodes.length →
    REvent.parentRemove p n ∈ (unlinkParents fuel w n plen ps).2 := by
  intro ps
  induction ps with
  | nil =>
    intro w n plen _ p hp
    simp at hp
  | cons p0 ps' IH =>
    intro w n plen hplen p hp hlen
    rcases List.mem_cons.mp hp with rfl | hp'
    · cases hp0 : w.rnodes[p]? with
      | none =>
        rw [List.getElem?_eq_getElem hlen] at hp0
        exact Option.noConfusion hp0
      | some pd =>
        rw [unlinkParents_cons_cascade fuel n plen ps' hp0 (Or.inr hplen)]
        simp [List.mem_append, List.mem_cons]
    · cases hp0 : w.rnodes[p0]? with
      | none =>
        rw [unlinkParents_cons_dead fuel n plen ps' hp0]
        exact IH w n plen hplen p hp' hlen
      | some pd =>
        by_cases hcond :
            (pd.removal = true ∧ pd.children.erase n = []) ∨ 1 < plen
        · rw [unlinkParents_cons_cascade fuel n plen ps' hp0 hcond]
          simp only []
          have hlen2 : p < (removeNode fuel
              (w.setNode p0 { pd with children := pd.children.erase n }) p0).1.rnodes.length := by
            rw [(removeNode_acc fuel _ p0).1]
            simpa [RWorld.setNode] using hlen
          have := IH _ n plen hplen p hp' hlen2
          simp only [List.mem_append, List.mem_cons]
          tauto
        · exact absurd (Or.inr hplen) hcond

/-- C3: `Node::Remove()` is idempotent.  Across a first `Remove()` and a
second `Remove()` run from whatever state the first one reached (including
the early-return-at-`StopDriver` state resumed by the driver's
stop-completion callback), the node is erased from any given parent's
children list at most once, any driver is sent at most one `Stop` request,
and a second call in either terminal state of the first (fully unlinked, or
waiting on a stop already in progress) performs no observable action at all
(no unlink, no parent notification, no stop request). -/
theorem removeNode_idempotent (f1 f2 : Nat) (w : RWorld) (n : Nat) :
    (∀ p, (w.childrenOf p).count n ≤ 1 →
      ((removeNode f1 w n).2 ++
        (removeNode f2 (removeNode f1 w n).1 n).2).count (REvent.unlink p n) ≤ 1) ∧
    (∀ d, ((removeNode f1 w n).2 ++
        (removeNode f2 (removeNode f1 w n).1 n).2).count (REvent.stopReq d) ≤ 1) ∧
    (∀ nd1, (removeNode f1 w n).1.rnodes[n]? = Option.some nd1 →
      nd1.children = [] →
      ((nd1.parents = [] ∧ nd1.driver = Option.none) ∨
        (∃ d, nd1.driver = Option.some d ∧
          (removeNode f1 w n).1.rdrivers[d]? = Option.some true)) →
      (removeNode f2 (removeNode f1 w n).1 n).2 = []) := by
  refine ⟨?_, ?_, ?_⟩
  · intro p hp
    have A := (removeNode_acc f1 w n).2.1 p n
    have B := (removeNode_acc f2 (removeNode f1 w n).1 n).2.1 p n
    rw [List.count_append]
    omega
  · intro d
    have A := (removeNode_acc f1 w n).2.2 d
    have B := (removeNode_acc f2 (removeNode f1 w n).1 n).2.2 d
    have C := stopPot_le_one w d
    rw [List.count_append]
    omega
  · rintro nd1 hn1 hch (⟨hpar, hdr⟩ | ⟨d, hdr, hflag⟩)
    · exact removeNode_silent_completed f2 hn1 hch hpar hdr
    · exact removeNode_silent_stopped f2 hn1 hch hdr hflag

theorem removeNode_idempotent_witness :
    (C3wit.childrenOf 0).count 1 ≤ 1 ∧
    ((removeNode 3 C3wit 1).2 ++
      (removeNode 3 (removeNode 3 C3wit 1).1 1).2).count (REvent.unlink 0 1) ≤ 1 :=
  ⟨by decide, (removeNode_idempotent 3 3 C3wit 1).1 0 (by decide)⟩

/-- C4: cascade on unlink.  For a node that reaches its unlink phase (no
children, no bound driver): a sole parent with `removal_in_progress_` set
whose children list empties by this unlinking has its own `Remove()` invoked;
a composite node (`parents_.size() > 1`) has `Remove()` invoked on every one
of its parents unconditionally; and a run after which the node still has
children logged no unlink or parent-notification event for it (a node with a
non-empty children list never proceeds past the child-removal phase). -/
theorem removeNode_cascade (f : Nat) (w : RWorld) (n : Nat) (nd : RNode)
    (hn : w.rnodes[n]? = Option.some nd) (hch : nd.children = [])
    (hdr : nd.driver = Option.none) :
    (∀ p pd, nd.parents = [p] → p ≠ n → w.rnodes[p]? = Option.some pd →
      pd.removal = true → pd.children.erase n = [] →
      REvent.parentRemove p n ∈ (removeNode (f + 1) w n).2) ∧
    (1 < nd.parents.length → ∀ p ∈ nd.parents, p < w.rnodes.length →
      REvent.parentRemove p n ∈ (removeNode (f + 1) w n).2) ∧
    (∀ (fuel : Nat) (w' : RWorld) (m : Nat),
      (removeNode fuel w' m).1.childrenOf n ≠ [] →
      ∀ q, ¬ touches q n (removeNode fuel w' m).2) := by
  refine ⟨?_, ?_, ?_⟩
  · intro p pd hpar hpn hp hrem hemp
    rw [removeNode_succ_live f hn]
    simp only [hch, removeKids_nil, getElem?_setNode_self hn, hdr, hpar]
    rw [if_neg (by simp)]
    have hp1 : (w.setNode n
        ⟨[p], [], true, false, Option.none⟩).rnodes[p]? = Option.some pd := by
      rw [getElem?_setNode_ne _ hpn.symm]
      exact hp
    have := unlinkParents_single_mem f ([p].length) hp1 hrem hemp
    simpa using this
  · intro hplen p hp hlen
    rw [removeNode_succ_live f hn]
    simp only [hch, removeKids_nil, getElem?_setNode_self hn, hdr]
    rw [if_neg (by simp)]
    have hlen1 : p < (w.setNode n
        ⟨nd.parents, [], true, false, Option.none⟩).rnodes.length := by
      simpa [RWorld.setNode] using hlen
    have := unlinkParents_mem_all f nd.parents _ n nd.parents.length hplen p hp hlen1
    simpa using this
  · intro fuel w' m hne q ht
    exact hne (removeNode_compl fuel w' m q n ht)

theorem removeNode_cascade_witness :
    C4wit.rnodes[1]? = Option.some ⟨[0], [], false, true, Option.none⟩ ∧
    REvent.parentRemove 0 1 ∈ (removeNode 1 C4wit 1).2 :=
  ⟨by decide,
   (removeNode_cascade 0 C4wit 1 ⟨[0], [], false, true, Option.none⟩
      (by decide) rfl rfl).1 0 ⟨[], [1], true, false, Option.none⟩
      rfl (by decide) (by decide) rfl (by decide)⟩

theorem collectOffers_err_iff (pre : List OfferArg)
    (hpre : ∀ o' ∈ pre, offerOk o') (rest : List OfferArg) (e : NodeError) :
    collectOffers (pre ++ rest) = .error e ↔ collectOffers rest = .error e := by
  induction pre with
  | nil => simp
  | cons o' pre' IH =>
    obtain ⟨d, rfl, hsn, hs, ht⟩ := hpre o' (List.mem_cons_self o' pre')
    have IH' := IH fun x hx => hpre x (List.mem_cons_of_mem _ hx)
    obtain ⟨nm, hnm⟩ := Option.isSome_iff_exists.mp hsn
    refine Iff.trans ?_ IH'
    rw [List.cons_append]
    cases hco : collectOffers (pre' ++ rest) with
    | error e' =>
      unfold collectOffers
      rw [hco]
      simp [hnm, hs, ht]
    | ok v =>
      unfold collectOffers
      rw [hco]
      simp [hnm, hs, ht]

theorem collectOffers_head_missing {o : OfferArg} (rest : List OfferArg)
    (h : o = Option.none ∨ ∃ d, o = Option.some d ∧ d.sourceName = Option.none) :
    collectOffers (o :: rest) = .error .offerSourceNameMissing := by
  rcases h with rfl | ⟨d, rfl, hd⟩
  · rfl
  · unfold collectOffers
    simp [hd]

theorem collectOffers_head_ref {d : OfferDecl} (rest : List OfferArg)
    (hsn : d.sourceName.isSome = true)
    (href : d.hasSource = true ∨ d.hasTarget = true) :
    collectOffers (Option.some d :: rest) = .error .offerRefExists := by
  obtain ⟨nm, hnm⟩ := Option.isSome_iff_exists.mp hsn
  unfold collectOffers
  rcases href with h | h <;> simp [hnm, h]

theorem collectSymbols_cons_ok {s : SymbolArg} {nm : String} {a : Nat}
    {seen : List String} (hnm : s.symName = Option.some nm)
    (ha : s.address = Option.some a) (hseen : nm ∉ seen) (l : List SymbolArg) :
    collectSymbols seen (s :: l) =
      match collectSymbols (nm :: seen) l with
      | .error e => .error e
      | .ok v => .ok ((nm, a) :: v) := by
  conv_lhs => rw [collectSymbols]
  simp only [hnm, ha]
  rw [if_neg hseen]
  cases hco : collectSymbols (nm :: seen) l with
  | error e' => rfl
  | ok v => rfl

theorem collectSymbols_append_err (pre : List SymbolArg) :
    ∀ (seen : List String) (acc : List (String × Nat)),
    collectSymbols seen pre = .ok acc →
    ∃ seen', (∀ x, x ∈ seen' ↔ x ∈ seen ∨ x ∈ pre.filterMap SymbolArg.symName) ∧
      ∀ (rest : List SymbolArg) (e : NodeError),
        (collectSymbols seen (pre ++ rest) = .error e ↔
          collectSymbols seen' rest = .error e) := by
  induction pre with
  | nil =>
    intro seen acc _
    exact ⟨seen, fun x => by simp, fun rest e => by simp⟩
  | cons s pre' IH =>
    intro seen acc hok
    unfold collectSymbols at hok
    cases hnm : s.symName with
    | none => simp [hnm] at hok
    | some nm =>
      simp only [hnm] at hok
      cases ha : s.address with
      | none => simp [ha] at hok
      | some a =>
        simp only [ha] at hok
        by_cases hseen : nm ∈ seen
        · rw [if_pos hseen] at hok
          exact absurd hok (by simp)
        · rw [if_neg hseen] at hok
          cases hrec : collectSymbols (nm :: seen) pre' with
          | error e' =>
            rw [hrec] at hok
            exact absurd hok (by simp)
          | ok acc' =>
            obtain ⟨seen', hmem, hiff⟩ := IH (nm :: seen) acc' hrec
            refine ⟨seen', fun x => ?_, fun rest e => ?_⟩
            · rw [hmem x]
              simp [hnm, List.mem_cons]
              tauto
            · rw [List.cons_append, collectSymbols_cons_ok hnm ha hseen,
                ← hiff rest e]
              cases hco : collectSymbols (nm :: seen) (pre' ++ rest) with
              | error e' => simp
              | ok v => simp

theorem collectSymbols_head_nameMissing {s : SymbolArg} (seen : List String)
    (rest : List SymbolArg) (h : s.symName = Option.none) :
    collectSymbols seen (s :: rest) = .error .symbolNameMissing := by
  unfold collectSymbols
  rw [h]

theorem collectSymbols_head_addrMissing {s : SymbolArg} {nm : String}
    (seen : List String) (rest : List SymbolArg)
    (hn : s.symName = Option.some nm) (ha : s.address = Option.none) :
    collectSymbols seen (s :: rest) = .error .symbolAddressMissing := by
  unfold collectSymbols
  rw [hn, ha]

theorem collectSymbols_head_dup {s : SymbolArg} {nm : String} {a : Nat}
    (seen : List String) (rest : List SymbolArg)
    (hn : s.symName = Option.some nm) (ha : s.address = Option.some a)
    (hdup : nm ∈ seen) :
    collectSymbols seen (s :: rest) = .error .symbolAlreadyExists := by
  unfold collectSymbols
  simp only [hn, ha]
  rw [if_pos hdup]

/-- Reaching the offers loop: the reply of AddChild once the name checks have
passed is decided by `collectOffers` and then `collectSymbols`. -/
theorem addChild_offers_err {binder : Bool} {children : List String}
    {args : NodeAddArgs} {s : String} {e : NodeError}
    (hb : binder = true) (hname : args.name = Option.some s)
    (hdot : '.' ∉ s.data) (hmem : s ∉ children)
    (he : collectOffers (args.offers.getD []) = .error e) :
    addChild binder children args = ⟨.error e, children⟩ := by
  unfold addChild
  rw [hb, hname]
  simp only [Bool.not_true, Bool.false_eq_true, if_false, if_neg hdot,
    if_neg hmem]
  rw [he]

theorem addChild_symbols_err {binder : Bool} {children : List String}
    {args : NodeAddArgs} {s : String} {offs : List OfferDecl} {e : NodeError}
    (hb : binder = true) (hname : args.name = Option.some s)
    (hdot : '.' ∉ s.data) (hmem : s ∉ children)
    (ho : collectOffers (args.offers.getD []) = .ok offs)
    (he : collectSymbols [] (args.symbols.getD []) = .error e) :
    addChild binder children args = ⟨.error e, children⟩ := by
  unfold addChild
  rw [hb, hname]
  simp only [Bool.not_true, Bool.false_eq_true, if_false, if_neg hdot,
    if_neg hmem]
  rw [ho, he]

/-- Every error reply of AddChild leaves the parent's children list untouched:
the child is attached only on the success path, after all validation. -/
theorem addChild_error_children (binder : Bool) (children : List String)
    (args : NodeAddArgs) :
    ∀ e, (addChild binder children args).reply = .error e →
      (addChild binder children args).childrenAfter = children := by
  intro e
  unfold addChild
  split
  · intro _; rfl
  · split
    · intro _; rfl
    · split
      · intro _; rfl
      · split
        · intro _; rfl
        · split
          · intro _; rfl
          · split
            · intro _; rfl
            · intro h
              simp at h

/-- C1: `Node::AddChild` validation.  A mid-removal target (binder cleared)
replies `NodeRemoved`; a missing name replies `NameMissing`; a name containing
the path separator `'.'` replies `NameInvalid`; a name equal to an existing
child's replies `NameAlreadyExists`; the first offending offer replies
`OfferSourceNameMissing` (no source name, including unknown-tag offers) or
`OfferRefExists` (pre-existing source or target); the first offending symbol
replies `SymbolNameMissing`/`SymbolAddressMissing`/`SymbolAlreadyExists`; and
every error reply leaves the parent's children list unchanged. -/
theorem addChild_errors (binder : Bool) (children : List String)
    (args : NodeAddArgs) :
    (binder = false →
      addChild binder children args = ⟨.error .nodeRemoved, children⟩) ∧
    (binder = true → args.name = Option.none →
      addChild binder children args = ⟨.error .nameMissing, children⟩) ∧
    (∀ s, binder = true → args.name = Option.some s → '.' ∈ s.data →
      addChild binder children args = ⟨.error .nameInvalid, children⟩) ∧
    (∀ s, binder = true → args.name = Option.some s → '.' ∉ s.data →
      s ∈ children →
      addChild binder children args = ⟨.error .nameAlreadyExists, children⟩) ∧
    (∀ s os pre o rest, binder = true → args.name = Option.some s →
      '.' ∉ s.data → s ∉ children → args.offers = Option.some os →
      os = pre ++ o :: rest → (∀ o' ∈ pre, offerOk o') →
      ((o = Option.none ∨ ∃ d, o = Option.some d ∧ d.sourceName = Option.none) →
        addChild binder children args = ⟨.error .offerSourceNameMissing, children⟩) ∧
      (∀ d, o = Option.some d → d.sourceName.isSome = true →
        (d.hasSource = true ∨ d.hasTarget = true) →
        addChild binder children args = ⟨.error .offerRefExists, children⟩)) ∧
    (∀ s syms pre sym rest offs acc, binder = true →
      args.name = Option.some s → '.' ∉ s.data → s ∉ children →
      collectOffers (args.offers.getD []) = .ok offs →
      args.symbols = Option.some syms → syms = pre ++ sym :: rest →
      collectSymbols [] pre = .ok acc →
      (sym.symName = Option.none →
        addChild binder children args = ⟨.error .symbolNameMissing, children⟩) ∧
      (∀ nm, sym.symName = Option.some nm → sym.address = Option.none →
        addChild binder children args = ⟨.error .symbolAddressMissing, children⟩) ∧
      (∀ nm a, sym.symName = Option.some nm → sym.address = Option.some a →
        nm ∈ pre.filterMap SymbolArg.symName →
        addChild binder children args = ⟨.error .symbolAlreadyExists, children⟩)) ∧
    (∀ e, (addChild binder children args).reply = .error e →
      (addChild binder children args).childrenAfter = children) := by
  refine ⟨?_, ?_, ?_, ?_, ?_, ?_, addChild_error_children binder children args⟩
  · intro hb
    subst hb
    rfl
  · intro hb hname
    subst hb
    unfold addChild
    rw [hname]
    rfl
  · intro s hb hname hdot
    subst hb
    unfold addChild
    rw [hname]
    simp [hdot]
  · intro s hb hname hdot hmem
    subst hb
    unfold addChild
    rw [hname]
    simp [hdot, hmem]
  · intro s os pre o rest hb hname hdot hmem hoff hos hpre
    have hgetD : args.offers.getD [] = pre ++ o :: rest := by
      rw [hoff, Option.getD_some, hos]
    constructor
    · intro hbad
      refine addChild_offers_err hb hname hdot hmem ?_
      rw [hgetD]
      exact (collectOffers_err_iff pre hpre _ _).mpr
        (collectOffers_head_missing rest hbad)
    · intro d hd hsn href
      refine addChild_offers_err hb hname hdot hmem ?_
      rw [hgetD]
      subst hd
      exact (collectOffers_err_iff pre hpre _ _).mpr
        (collectOffers_head_ref rest hsn href)
  · intro s syms pre sym rest offs acc hb hname hdot hmem hok hsyms hsplit hacc
    have hgetD : args.symbols.getD [] = pre ++ sym :: rest := by
      rw [hsyms, Option.getD_some, hsplit]
    obtain ⟨seen', hmem', hiff⟩ := collectSymbols_append_err pre [] acc hacc
    refine ⟨?_, ?_, ?_⟩
    · intro hn
      refine addChild_symbols_err hb hname hdot hmem hok ?_
      rw [hgetD]
      exact (hiff (sym :: rest) _).mpr
        (collectSymbols_head_nameMissing seen' rest hn)
    · intro nm hn ha
      refine addChild_symbols_err hb hname hdot hmem hok ?_
      rw [hgetD]
      exact (hiff (sym :: rest) _).mpr
        (collectSymbols_head_addrMissing seen' rest hn ha)
    · intro nm a hn ha hdup
      refine addChild_symbols_err hb hname hdot hmem hok ?_
      rw [hgetD]
      exact (hiff (sym :: rest) _).mpr
        (collectSymbols_head_dup seen' rest hn ha
          ((hmem' nm).mpr (Or.inr hdup)))

theorem addChild_errors_witness :
    ("disk" ∈ ["disk"]) ∧
    addChild true ["disk"]
        ⟨Option.some "disk", Option.none, Option.none, Option.none⟩ =
      ⟨.error .nameAlreadyExists, ["disk"]⟩ :=
  ⟨by simp,
   (addChild_errors true ["disk"]
      ⟨Option.some "disk", Option.none, Option.none, Option.none⟩).2.2.2.1 "disk"
      rfl rfl (by decide) (by simp)⟩

theorem stopDriverRuns_flagged : ∀ (n : Nat) (s : DriverComponentSt),
    s.stopInProgress = true → (stopDriverRuns n s).2 = 0 := by
  intro n
  induction n with
  | zero => intro s _; rfl
  | succ k IH =>
    intro s h
    unfold stopDriverRuns stopDriver
    rw [h]
    simp only [if_true]
    simpa using IH s h

theorem stopDriverRuns_fresh : ∀ (n : Nat) (s : DriverComponentSt),
    s.stopInProgress = false → (stopDriverRuns (n + 1) s).2 = 1 := by
  intro n s h
  unfold stopDriverRuns stopDriver
  rw [h]
  simp only [Bool.false_eq_true, if_false]
  have := stopDriverRuns_flagged n ⟨true⟩ rfl
  simp [this]

/-- C10: at most one `Stop` request per `DriverComponent`.  `StopDriver` sets
`stop_in_progress_` on the first call, every later call is a no-op, and any
number of consecutive `StopDriver` invocations sends at most one `Stop`
request over the driver channel (exactly one when starting fresh). -/
theorem stopDriver_at_most_once (s : DriverComponentSt) (n : Nat) :
    ((stopDriver s).1.stopInProgress = true) ∧
    ((stopDriver (stopDriver s).1).2 = false) ∧
    (s.stopInProgress = false → (stopDriverRuns (n + 1) s).2 = 1) ∧
    (∀ m, (stopDriverRuns m s).2 ≤ 1) := by
  have hflag : (stopDriver s).1.stopInProgress = true := by
    unfold stopDriver
    by_cases h : s.stopInProgress
    · rw [if_pos h]; exact h
    · rw [if_neg h]
  have hnoop : ∀ t : DriverComponentSt, t.stopInProgress = true →
      stopDriver t = (t, false) := by
    intro t h
    unfold stopDriver
    rw [if_pos h]
  refine ⟨hflag, ?_, stopDriverRuns_fresh n s, ?_⟩
  · rw [hnoop _ hflag]
  · intro m
    cases m with
    | zero => simp [stopDriverRuns]
    | succ k =>
      cases h : s.stopInProgress with
      | true => rw [stopDriverRuns_flagged (k + 1) s h]; omega
      | false => rw [stopDriverRuns_fresh k s h]

theorem stopDriver_at_most_once_witness :
    (⟨false⟩ : DriverComponentSt).stopInProgress = false ∧
    (stopDriverRuns 5 ⟨false⟩).2 = 1 :=
  ⟨rfl, (stopDriver_at_most_once ⟨false⟩ 4).2.2.1 rfl⟩

/-- C9: driver-host inheritance and symbol visibility.  A newly constructed
node with at least one parent copies its primary parent's `driver_host_`;
`Node::symbols()` is non-empty only when the node's driver host equals its
primary parent's; a composite node returns the primary parent's own symbol
table; and a node whose host differs from its primary parent's yields an
empty list. -/
theorem node_symbols_colocated (syms : List (String × Nat)) (ps : List NodeV)
    (n : NodeV) :
    (∀ pp, NodeV.primaryParent ps = Option.some pp →
      (NodeV.nodeCtor syms ps).driverHost = pp.driverHost) ∧
    (NodeV.symbols n ≠ [] →
      ∃ pp, NodeV.primaryParent n.parents = Option.some pp ∧
        pp.driverHost = n.driverHost) ∧
    (∀ pp, NodeV.primaryParent n.parents = Option.some pp →
      pp.driverHost = n.driverHost → 1 < n.parents.length →
      NodeV.symbols n = pp.symbols_) ∧
    (∀ pp, NodeV.primaryParent n.parents = Option.some pp →
      pp.driverHost ≠ n.driverHost → NodeV.symbols n = []) := by
  refine ⟨?_, ?_, ?_, ?_⟩
  · intro pp hpp
    unfold NodeV.nodeCtor
    simp only [hpp]
    rfl
  · intro hne
    unfold NodeV.symbols at hne
    cases hpp : NodeV.primaryParent n.parents with
    | none => rw [hpp] at hne; exact absurd rfl hne
    | some pp =>
      simp only [hpp] at hne
      by_cases hh : pp.driverHost = n.driverHost
      · exact ⟨pp, rfl, hh⟩
      · rw [if_neg hh] at hne
        exact absurd rfl hne
  · intro pp hpp hh hlen
    unfold NodeV.symbols
    simp only [hpp]
    rw [if_pos hh, if_pos hlen]
  · intro pp hpp hh
    unfold NodeV.symbols
    simp only [hpp]
    rw [if_neg hh]

theorem node_symbols_colocated_witness :
    NodeV.primaryParent [NodeV.mk (Option.some 7) [("sym", 1)] [],
        NodeV.mk (Option.some 7) [] []] =
      Option.some (NodeV.mk (Option.some 7) [("sym", 1)] []) ∧
    NodeV.symbols (NodeV.mk (Option.some 7) []
        [NodeV.mk (Option.some 7) [("sym", 1)] [],
         NodeV.mk (Option.some 7) [] []]) = [("sym", 1)] :=
  ⟨rfl,
   (node_symbols_colocated [] []
      (NodeV.mk (Option.some 7) []
        [NodeV.mk (Option.some 7) [("sym", 1)] [],
         NodeV.mk (Option.some 7) [] []])).2.2.1
      (NodeV.mk (Option.some 7) [("sym", 1)] []) rfl rfl (by decide)⟩

/-- C7: `DriverRunner::Start` validation.  Missing numbered handles, a
handle list that is not exactly one valid handle tagged `kTokenId`, close the
connection with `ZX_ERR_INVALID_ARGS`; an identity absent from the
pending-token map closes with `ZX_ERR_UNAVAILABLE`; a successful lookup
erases the pending mapping (the token is single-use, consumed even before
the colocation check); and a colocation request for the root node closes
with `ZX_ERR_INVALID_ARGS`. -/
theorem runnerStart_validation (driverArgs : List (Nat × Nat)) (rootId : Nat)
    (req : StartInfo) :
    (req.numberedHandles = Option.none →
      runnerStart driverArgs rootId req = (.closed ZX_ERR_INVALID_ARGS, driverArgs)) ∧
    (∀ hs, req.numberedHandles = Option.some hs → hs.length ≠ 1 →
      runnerStart driverArgs rootId req = (.closed ZX_ERR_INVALID_ARGS, driverArgs)) ∧
    (∀ hi, req.numberedHandles = Option.some [hi] →
      (hi.handle = Option.none ∨ hi.id ≠ kTokenId) →
      runnerStart driverArgs rootId req = (.closed ZX_ERR_INVALID_ARGS, driverArgs)) ∧
    (∀ hi koid, req.numberedHandles = Option.some [hi] →
      hi.handle = Option.some koid → hi.id = kTokenId →
      driverArgs.find? (fun kv => kv.1 == koid) = Option.none →
      runnerStart driverArgs rootId req = (.closed ZX_ERR_UNAVAILABLE, driverArgs)) ∧
    (∀ hi koid kv, req.numberedHandles = Option.some [hi] →
      hi.handle = Option.some koid → hi.id = kTokenId →
      driverArgs.find? (fun kv' => kv'.1 == koid) = Option.some kv →
      (runnerStart driverArgs rootId req).2 =
        driverArgs.filter (fun kv' => ¬ kv'.1 == koid) ∧
      (req.colocate = true → kv.2 = rootId →
        (runnerStart driverArgs rootId req).1 = .closed ZX_ERR_INVALID_ARGS)) := by
  refine ⟨?_, ?_, ?_, ?_, ?_⟩
  · intro h
    unfold runnerStart
    rw [h]
  · intro hs hh hlen
    unfold runnerStart
    rw [hh]
    match hs, hlen with
    | [], _ => rfl
    | [hi], hlen => exact absurd rfl hlen
    | hi1 :: hi2 :: t, _ => rfl
  · intro hi hh hbad
    unfold runnerStart
    rw [hh]
    rcases hbad with hnone | hid
    · simp only [hnone]
    · cases hhd : hi.handle with
      | none => simp only [hhd]
      | some koid =>
        have hfalse : (hi.id == kTokenId) = false := beq_false_of_ne hid
        simp only [hhd, hfalse]
  · intro hi koid hh hhd hid hfind
    unfold runnerStart
    rw [hh]
    simp only [hhd, show (hi.id == kTokenId) = true from beq_iff_eq.mpr hid,
      hfind]
  · intro hi koid kv hh hhd hid hfind
    unfold runnerStart
    rw [hh]
    simp only [hhd, show (hi.id == kTokenId) = true from beq_iff_eq.mpr hid,
      hfind]
    constructor
    · split <;> rfl
    · intro hc hroot
      rw [if_pos (by rw [hc, hroot]; simp)]

theorem runnerStart_validation_witness :
    (⟨Option.some [⟨Option.some 5, kTokenId⟩], true⟩ : StartInfo).numberedHandles =
      Option.some [⟨Option.some 5, kTokenId⟩] ∧
    ([(5, 0)].find? (fun kv' => kv'.1 == 5) = Option.some (5, 0)) ∧
    (runnerStart [(5, 0)] 0 ⟨Option.some [⟨Option.some 5, kTokenId⟩], true⟩).2 = [] ∧
    (runnerStart [(5, 0)] 0 ⟨Option.some [⟨Option.some 5, kTokenId⟩], true⟩).1 =
      .closed ZX_ERR_INVALID_ARGS := by
  have h := (runnerStart_validation [(5, 0)] 0
      ⟨Option.some [⟨Option.some 5, kTokenId⟩], true⟩).2.2.2.2
      ⟨Option.some 5, kTokenId⟩ 5 (5, 0) rfl rfl rfl (by decide)
  exact ⟨rfl, by decide, h.1.trans (by decide), h.2 rfl rfl⟩

/-- C8: `Bind` match-callback failure handling.  A transport failure, an
error result, a matched driver that is neither a normal nor a composite
driver, and a driver info with a missing URL all orphan the node: it is
appended to the orphaned-nodes list, no `StartDriver` occurs, and nothing is
returned to `Bind`'s caller. -/
theorem bindMatch_failures (orphans : List Nat) (nodeId : Nat) :
    (bindMatchAction .transportError = .orphanNode) ∧
    (∀ st, bindMatchAction (.errStatus st) = .orphanNode) ∧
    (bindMatchAction (.matched .otherVariant) = .orphanNode) ∧
    (∀ info, info.url = Option.none →
      bindMatchAction (.matched (.driver info)) = .orphanNode) ∧
    (∀ info, info.url = Option.none →
      bindMatchAction (.matched (.compositeDriver (Option.some info))) = .orphanNode) ∧
    (∀ res, bindMatchAction res = .orphanNode →
      applyBindAction orphans nodeId (bindMatchAction res) =
        (orphans ++ [nodeId], Option.none)) := by
  refine ⟨rfl, fun _ => rfl, rfl, ?_, ?_, ?_⟩
  · intro info hu
    unfold bindMatchAction
    simp only [hu]
  · intro info hu
    unfold bindMatchAction
    simp only [hu]
  · intro res h
    rw [h]
    rfl

theorem bindMatch_failures_witness :
    (⟨Option.none⟩ : DriverInfo).url = Option.none ∧
    bindMatchAction (.matched (.driver ⟨Option.none⟩)) = .orphanNode ∧
    applyBindAction [] 4 (bindMatchAction .transportError) = ([4], Option.none) :=
  ⟨rfl, (bindMatch_failures [] 4).2.2.2.1 ⟨Option.none⟩ rfl,
   (bindMatch_failures [] 4).2.2.2.2.2 .transportError rfl⟩

/-! Store lemmas for the topology model. -/
theorem getT_lt {l : List TNode} {i : Nat} {nd : TNode}
    (h : l[i]? = Option.some nd) : i < l.length :=
  (List.getElem?_eq_some.mp h).1

theorem getT_append_lt {l l' : List TNode} {i : Nat} (h : i < l.length) :
    (l ++ l')[i]? = l[i]? := by
  rw [List.getElem?_append]
  simp [h]

theorem getT_set_self {l : List TNode} {i : Nat} (h : i < l.length)
    (nd : TNode) : (l.set i nd)[i]? = Option.some nd := by
  rw [List.getElem?_set_self']
  simp [h]

theorem getT_set_ne {l : List TNode} {i j : Nat} (nd : TNode) (h : i ≠ j) :
    (l.set i nd)[j]? = l[j]? :=
  List.getElem?_set_ne h

theorem attachAll_length (newId : Nat) :
    ∀ (ps : List Nat) (l : List TNode),
      (attachAll newId l ps).length = l.length := by
  intro ps
  induction ps with
  | nil => intro l; rfl
  | cons p ps' IH =>
    intro l
    unfold attachAll
    cases hp : l[p]? with
    | none => exact IH l
    | some pd => rw [IH]; simp

theorem attachAll_get_not_mem (newId : Nat) :
    ∀ (ps : List Nat) (l : List TNode) (j : Nat), j ∉ ps →
      (attachAll newId l ps)[j]? = l[j]? := by
  intro ps
  induction ps with
  | nil => intro l j _; rfl
  | cons p ps' IH =>
    intro l j hj
    unfold attachAll
    cases hp : l[p]? with
    | none => exact IH l j (fun h => hj (List.mem_cons_of_mem _ h))
    | some pd =>
      rw [IH _ j (fun h => hj (List.mem_cons_of_mem _ h))]
      exact getT_set_ne _ (fun h => hj (h ▸ List.mem_cons_self p ps'))

theorem attachAll_get_mem (newId : Nat) :
    ∀ (ps : List Nat) (l : List TNode) (p : Nat) (pd : TNode), ps.Nodup →
      p ∈ ps → l[p]? = Option.some pd →
      (attachAll newId l ps)[p]? =
        Option.some { pd with children := pd.children ++ [newId] } := by
  intro ps
  induction ps with
  | nil => intro l p pd _ hmem; simp at hmem
  | cons q ps' IH =>
    intro l p pd hnd hmem hp
    rcases List.mem_cons.mp hmem with rfl | hmem'
    · unfold attachAll
      rw [hp]
      rw [attachAll_get_not_mem newId ps' _ p (by
        intro hc
        exact (List.nodup_cons.mp hnd).1 hc)]
      exact getT_set_self (getT_lt hp) _
    · unfold attachAll
      cases hq : l[q]? with
      | none => exact IH _ p pd (List.nodup_cons.mp hnd).2 hmem' hp
      | some qd =>
        refine IH _ p pd (List.nodup_cons.mp hnd).2 hmem' ?_
        rw [getT_set_ne _ (fun h =>
          (List.nodup_cons.mp hnd).1 (by rw [h]; exact hmem'))]
        exact hp

theorem detachAll_length (n : Nat) :
    ∀ (ps : List Nat) (l : List TNode),
      (detachAll n l ps).length = l.length := by
  intro ps
  induction ps with
  | nil => intro l; rfl
  | cons p ps' IH =>
    intro l
    unfold detachAll
    cases hp : l[p]? with
    | none => exact IH l
    | some pd => rw [IH]; simp

theorem detachAll_get_not_mem (n : Nat) :
    ∀ (ps : List Nat) (l : List TNode) (j : Nat), j ∉ ps →
      (detachAll n l ps)[j]? = l[j]? := by
  intro ps
  induction ps with
  | nil => intro l j _; rfl
  | cons p ps' IH =>
    intro l j hj
    unfold detachAll
    cases hp : l[p]? with
    | none => exact IH l j (fun h => hj (List.mem_cons_of_mem _ h))
    | some pd =>
      rw [IH _ j (fun h => hj (List.mem_cons_of_mem _ h))]
      exact getT_set_ne _ (fun h => hj (h ▸ List.mem_cons_self p ps'))

theorem detachAll_get_mem (n : Nat) :
    ∀ (ps : List Nat) (l : List TNode) (p : Nat) (pd : TNode), ps.Nodup →
      p ∈ ps → l[p]? = Option.some pd →
      (detachAll n l ps)[p]? =
        Option.some { pd with children := pd.children.erase n } := by
  intro ps
  induction ps with
  | nil => intro l p pd _ hmem; simp at hmem
  | cons q ps' IH =>
    intro l p pd hnd hmem hp
    rcases List.mem_cons.mp hmem with rfl | hmem'
    · unfold detachAll
      rw [hp]
      rw [detachAll_get_not_mem n ps' _ p (by
        intro hc
        exact (List.nodup_cons.mp hnd).1 hc)]
      exact getT_set_self (getT_lt hp) _
    · unfold detachAll
      cases hq : l[q]? with
      | none => exact IH _ p pd (List.nodup_cons.mp hnd).2 hmem' hp
      | some qd =>
        refine IH _ p pd (List.nodup_cons.mp hnd).2 hmem' ?_
        rw [getT_set_ne _ (fun h =>
          (List.nodup_cons.mp hnd).1 (by rw [h]; exact hmem'))]
        exact hp

/-- The ancestor walk only reads a node's collection and primary parent; it
is unchanged by any world transformation that preserves those fields of every
existing node except possibly a childless one (which no walk from a live
node ever visits). -/
theorem sourceWalk_succ_dead {w : TopoWorld} {i : Nat} (f : Nat)
    (hn : w.tnodes[i]? = Option.none) : sourceWalk w (f + 1) i = Option.none := by
  simp only [sourceWalk, hn]

theorem sourceWalk_succ_coll {w : TopoWorld} {i : Nat} {nd : TNode} (f : Nat)
    (hn : w.tnodes[i]? = Option.some nd)
    (hc : nd.collection ≠ Collection.none) :
    sourceWalk w (f + 1) i = Option.some i := by
  simp only [sourceWalk, hn]
  rw [if_pos hc]

theorem sourceWalk_succ_go {w : TopoWorld} {i : Nat} {nd : TNode} (f : Nat)
    (hn : w.tnodes[i]? = Option.some nd)
    (hc : ¬ nd.collection ≠ Collection.none) :
    sourceWalk w (f + 1) i =
      match nd.parents.head? with
      | Option.some p => sourceWalk w f p
      | Option.none => Option.none := by
  simp only [sourceWalk, hn]
  rw [if_neg hc]

/-- The ancestor walk only reads a node's collection and primary parent; it
is unchanged by any world transformation that preserves those fields of every
existing node except possibly a childless one (which no walk from a live
node ever visits). -/
theorem sourceWalk_stable {w w' : TopoWorld} (nbad : Nat)
    (hpar : ParentsOk w)
    (hview : ∀ j, j < w.tnodes.length → j ≠ nbad →
      (w'.tnodes[j]?).map (fun nd => (nd.collection, nd.parents.head?)) =
        (w.tnodes[j]?).map (fun nd => (nd.collection, nd.parents.head?)))
    (hbad : ∀ bd, w.tnodes[nbad]? = Option.some bd → bd.children = []) :
    ∀ (f m : Nat) (nd : TNode), w.tnodes[m]? = Option.some nd →
      nd.alive = true → m ≠ nbad → sourceWalk w' f m = sourceWalk w f m := by
  intro f
  induction f with
  | zero => intro m nd _ _ _; rfl
  | succ f IH =>
    intro m nd hm halive hmb
    have hv := hview m (getT_lt hm) hmb
    rw [hm] at hv
    obtain ⟨nd', hm', hfields⟩ := Option.map_eq_some'.mp hv
    have hcoll : nd'.collection = nd.collection := congrArg Prod.fst hfields
    have hhead : nd'.parents.head? = nd.parents.head? :=
      congrArg Prod.snd hfields
    by_cases hc : nd.collection ≠ Collection.none
    · rw [sourceWalk_succ_coll f hm' (hcoll ▸ hc),
        sourceWalk_succ_coll f hm hc]
    · rw [sourceWalk_succ_go f hm' (hcoll ▸ hc), sourceWalk_succ_go f hm hc,
        hhead]
      cases hhd : nd.parents.head? with
      | none => rfl
      | some p =>
        have hpmem : p ∈ nd.parents := List.mem_of_mem_head? (hhd ▸ rfl)
        obtain ⟨-, pd, hp, hpalive, hmmem⟩ := hpar m nd hm halive p hpmem
        have hpb : p ≠ nbad := by
          intro hpe
          rw [hpe] at hp
          rw [hbad pd hp] at hmmem
          simp at hmmem
        exact IH p pd hp hpalive hpb

/-- Setting a node's collection to a non-`none` value (as `StartDriver` does)
preserves walk success: the walk can only stop earlier. -/
theorem sourceWalk_setColl_isSome {w : TopoWorld} {n : Nat} {nd : TNode}
    (nd' : TNode)
    (hn : w.tnodes[n]? = Option.some nd) (_hpp : nd'.parents = nd.parents)
    (hcoll : nd'.collection ≠ Collection.none) :
    ∀ (f i : Nat), (sourceWalk w f i).isSome = true →
      (sourceWalk (w.setT n nd') f i).isSome = true := by
  intro f
  induction f with
  | zero => intro i h; simp [sourceWalk] at h
  | succ f IH =>
    intro i h
    by_cases hin : i = n
    · subst hin
      have hset : (w.setT i nd').tnodes[i]? = Option.some nd' :=
        getT_set_self (getT_lt hn) _
      rw [sourceWalk_succ_coll f hset hcoll]
      rfl
    · have hsame : (w.setT n nd').tnodes[i]? = w.tnodes[i]? :=
        getT_set_ne _ (fun he => hin he.symm)
      cases hi : w.tnodes[i]? with
      | none => rw [sourceWalk_succ_dead f hi] at h; simp at h
      | some ndi =>
        by_cases hc : ndi.collection ≠ Collection.none
        · rw [sourceWalk_succ_coll f (hsame.trans hi) hc]
          rfl
        · rw [sourceWalk_succ_go f hi hc] at h
          rw [sourceWalk_succ_go f (hsame.trans hi) hc]
          cases hhd : ndi.parents.head? with
          | none => rw [hhd] at h; simp at h
          | some p =>
            rw [hhd] at h
            exact IH p h

/-- With coherent parents, any fuel beyond the node's id gives the same walk
result (ids strictly decrease along the chain). -/
theorem sourceWalk_fuel_eq {w : TopoWorld} (hpar : ParentsOk w) :
    ∀ (m : Nat) (nd : TNode), w.tnodes[m]? = Option.some nd →
      nd.alive = true → ∀ f g, m < f → m < g →
      sourceWalk w f m = sourceWalk w g m := by
  intro m
  induction m using Nat.strong_induction_on with
  | _ m IH =>
    intro nd hm halive f g hf hg
    obtain ⟨f', rfl⟩ : ∃ f', f = f' + 1 := ⟨f - 1, by omega⟩
    obtain ⟨g', rfl⟩ : ∃ g', g = g' + 1 := ⟨g - 1, by omega⟩
    by_cases hc : nd.collection ≠ Collection.none
    · rw [sourceWalk_succ_coll f' hm hc, sourceWalk_succ_coll g' hm hc]
    · rw [sourceWalk_succ_go f' hm hc, sourceWalk_succ_go g' hm hc]
      cases hhd : nd.parents.head? with
      | none => rfl
      | some p =>
        have hpmem : p ∈ nd.parents := List.mem_of_mem_head? (hhd ▸ rfl)
        obtain ⟨hplt, pd, hp, hpalive, -⟩ := hpar m nd hm halive p hpmem
        exact IH p hplt pd hp hpalive f' g' (by omega) (by omega)

theorem classifyCollection_ne_none (url : String) :
    classifyCollection url ≠ Collection.none := by
  unfold classifyCollection
  split <;> simp

theorem getT_len_none (l : List TNode) : l[l.length]? = Option.none :=
  List.getElem?_eq_none (le_refl _)

theorem getT_setT_self {w : TopoWorld} {n : Nat} {nd : TNode}
    (h : w.tnodes[n]? = Option.some nd) (nd' : TNode) :
    (w.setT n nd').tnodes[n]? = Option.some nd' :=
  getT_set_self (getT_lt h) _

theorem getT_setT_ne {w : TopoWorld} {n j : Nat} (nd' : TNode) (h : n ≠ j) :
    (w.setT n nd').tnodes[j]? = w.tnodes[j]? :=
  getT_set_ne _ h

/-- A walk is unchanged by a `setT` that keeps the node's collection and
primary parent. -/
theorem sourceWalk_setT_view {w : TopoWorld} {n : Nat} {nd : TNode}
    (nd' : TNode)
    (hpar : ParentsOk w) (hn : w.tnodes[n]? = Option.some nd)
    (hcoll : nd'.collection = nd.collection)
    (hpp : nd'.parents.head? = nd.parents.head?) :
    ∀ (f m : Nat) (md : TNode), w.tnodes[m]? = Option.some md →
      md.alive = true → sourceWalk (w.setT n nd') f m = sourceWalk w f m := by
  intro f m md hm hal
  refine sourceWalk_stable w.tnodes.length hpar ?_ ?_ f m md hm hal
    (by have := getT_lt hm; omega)
  · intro j hj _
    by_cases hjn : j = n
    · subst hjn
      rw [getT_setT_self hn, hn]
      simp [hcoll, hpp]
    · rw [getT_setT_ne _ (fun h => hjn h.symm)]
  · intro bd hbd
    rw [getT_len_none] at hbd
    exact Option.noConfusion hbd

/-- Coherence is preserved by a `setT` that keeps parents, children and
aliveness. -/
theorem ParentsOk_setT {w : TopoWorld} {n : Nat} {nd nd' : TNode}
    (hn : w.tnodes[n]? = Option.some nd) (hpp : nd'.parents = nd.parents)
    (hch : nd'.children = nd.children) (hal : nd'.alive = nd.alive)
    (h : ParentsOk w) : ParentsOk (w.setT n nd') := by
  intro m md hm hmal p hp
  by_cases hmn : m = n
  · subst hmn
    rw [getT_setT_self hn] at hm
    cases hm
    rw [hpp] at hp
    obtain ⟨hlt, pd, hpd, hpal, hmem⟩ := h m nd hn (hal ▸ hmal) p hp
    refine ⟨hlt, ?_⟩
    by_cases hpn : p = m
    · omega
    · rw [getT_setT_ne _ (fun he => hpn he.symm)]
      exact ⟨pd, hpd, hpal, hmem⟩
  · rw [getT_setT_ne _ (fun he => hmn he.symm)] at hm
    obtain ⟨hlt, pd, hpd, hpal, hmem⟩ := h m md hm hmal p hp
    refine ⟨hlt, ?_⟩
    by_cases hpn : p = n
    · subst hpn
      rw [hpd] at hn
      cases hn
      exact ⟨nd', getT_setT_self hpd _, hal ▸ hpal, hch ▸ hmem⟩
    · rw [getT_setT_ne _ (fun he => hpn he.symm)]
      exact ⟨pd, hpd, hpal, hmem⟩

theorem chOk_setT {w : TopoWorld} {n : Nat} {nd nd' : TNode}
    (hn : w.tnodes[n]? = Option.some nd) (hpp : nd'.parents = nd.parents)
    (hch : nd'.children = nd.children) (hal : nd'.alive = nd.alive)
    (h : ∀ (p : Nat) (pd : TNode), w.tnodes[p]? = Option.some pd →
      ∀ c ∈ pd.children, ∃ cd, w.tnodes[c]? = Option.some cd ∧
        cd.alive = true ∧ p ∈ cd.parents) :
    ∀ (p : Nat) (pd : TNode), (w.setT n nd').tnodes[p]? = Option.some pd →
      ∀ c ∈ pd.children, ∃ cd, (w.setT n nd').tnodes[c]? = Option.some cd ∧
        cd.alive = true ∧ p ∈ cd.parents := by
  intro p pd hp c hc
  have hbase : ∃ cd, w.tnodes[c]? = Option.some cd ∧ cd.alive = true ∧
      p ∈ cd.parents := by
    by_cases hpn : p = n
    · subst hpn
      rw [getT_setT_self hn] at hp
      cases hp
      rw [hch] at hc
      exact h p nd hn c hc
    · rw [getT_setT_ne _ (fun he => hpn he.symm)] at hp
      exact h p pd hp c hc
  obtain ⟨cd, hcd, hcal, hcp⟩ := hbase
  by_cases hcn : c = n
  · subst hcn
    rw [hcd] at hn
    cases hn
    exact ⟨nd', getT_setT_self hcd _, hal ▸ hcal, hpp ▸ hcp⟩
  · rw [← @getT_setT_ne w n c nd' (fun he => hcn he.symm)] at hcd
    exact ⟨cd, hcd, hcal, hcp⟩

theorem sib_setT {w : TopoWorld} {n : Nat} {nd nd' : TNode}
    (hn : w.tnodes[n]? = Option.some nd) (hname : nd'.tname = nd.tname)
    (hvc : nd'.viaComposite = nd.viaComposite)
    (hch : nd'.children = nd.children)
    (h : ∀ (p : Nat) (pd : TNode), w.tnodes[p]? = Option.some pd →
      ∀ c1 ∈ pd.children, ∀ c2 ∈ pd.children, c1 ≠ c2 →
      ∀ cd1 cd2, w.tnodes[c1]? = Option.some cd1 →
        w.tnodes[c2]? = Option.some cd2 → cd1.viaComposite = false →
        cd2.viaComposite = false → cd1.tname ≠ cd2.tname) :
    ∀ (p : Nat) (pd : TNode), (w.setT n nd').tnodes[p]? = Option.some pd →
      ∀ c1 ∈ pd.children, ∀ c2 ∈ pd.children, c1 ≠ c2 →
      ∀ cd1 cd2, (w.setT n nd').tnodes[c1]? = Option.some cd1 →
        (w.setT n nd').tnodes[c2]? = Option.some cd2 →
        cd1.viaComposite = false → cd2.viaComposite = false →
        cd1.tname ≠ cd2.tname := by
  intro p pd hp c1 hc1 c2 hc2 hne cd1 cd2 hcd1 hcd2 hv1 hv2
  -- translate the children membership back to the original world
  have hch12 : ∃ pd0 : TNode, w.tnodes[p]? = Option.some pd0 ∧
      c1 ∈ pd0.children ∧ c2 ∈ pd0.children := by
    by_cases hpn : p = n
    · subst hpn
      rw [getT_setT_self hn] at hp
      cases hp
      rw [hch] at hc1 hc2
      exact ⟨nd, hn, hc1, hc2⟩
    · rw [getT_setT_ne _ (fun he => hpn he.symm)] at hp
      exact ⟨pd, hp, hc1, hc2⟩
  -- translate the child records back to the original world
  have tr : ∀ (c : Nat) (cd : TNode), (w.setT n nd').tnodes[c]? = Option.some cd →
      ∃ cd0 : TNode, w.tnodes[c]? = Option.some cd0 ∧ cd0.tname = cd.tname ∧
        cd0.viaComposite = cd.viaComposite := by
    intro c cd hcd
    by_cases hcn : c = n
    · subst hcn
      rw [getT_setT_self hn] at hcd
      cases hcd
      exact ⟨nd, hn, hname.symm, hvc.symm⟩
    · rw [getT_setT_ne _ (fun he => hcn he.symm)] at hcd
      exact ⟨cd, hcd, rfl, rfl⟩
  obtain ⟨cd1', hcd1', he1, hv1'⟩ := tr c1 cd1 hcd1
  obtain ⟨cd2', hcd2', he2, hv2'⟩ := tr c2 cd2 hcd2
  obtain ⟨pd0, hpw, hm1, hm2⟩ := hch12
  have := h p pd0 hpw c1 hm1 c2 hm2 hne cd1' cd2' hcd1' hcd2'
    (hv1' ▸ hv1) (hv2' ▸ hv2)
  rw [he1, he2] at this
  exact this

theorem nodup_setT {w : TopoWorld} {n : Nat} {nd nd' : TNode}
    (hn : w.tnodes[n]? = Option.some nd) (hpp : nd'.parents = nd.parents)
    (hch : nd'.children = nd.children)
    (h : ∀ (p : Nat) (pd : TNode), w.tnodes[p]? = Option.some pd →
      pd.children.Nodup ∧ pd.parents.Nodup) :
    ∀ (p : Nat) (pd : TNode), (w.setT n nd').tnodes[p]? = Option.some pd →
      pd.children.Nodup ∧ pd.parents.Nodup := by
  intro p pd hp
  by_cases hpn : p = n
  · subst hpn
    rw [getT_setT_self hn] at hp
    cases hp
    rw [hpp, hch]
    exact h p nd hn
  · rw [getT_setT_ne _ (fun he => hpn he.symm)] at hp
    exact h p pd hp

theorem rootRef_setT {w : TopoWorld} {n : Nat} {nd nd' : TNode}
    (hn : w.tnodes[n]? = Option.some nd)
    (hch : nd'.children = nd.children)
    (hrf : nd'.hasNodeRef = nd.hasNodeRef ∨ nd'.hasNodeRef = true)
    (h : ∀ rd, w.tnodes[0]? = Option.some rd → rd.children ≠ [] →
      rd.hasNodeRef = true) :
    ∀ rd, (w.setT n nd').tnodes[0]? = Option.some rd → rd.children ≠ [] →
      rd.hasNodeRef = true := by
  intro rd hrd hrch
  by_cases h0n : (0 : Nat) = n
  · rw [← h0n] at hn
    rw [← h0n, getT_setT_self hn] at hrd
    rw [← Option.some.inj hrd] at hrch ⊢
    rcases hrf with he | he
    · rw [he]
      rw [hch] at hrch
      exact h nd hn hrch
    · exact he
  · rw [getT_setT_ne _ (fun he => h0n he.symm)] at hrd
    exact h rd hrd hrch

/-- Record translation across a `setT` with preserved aliveness. -/
theorem getT_setT_back {w : TopoWorld} {n : Nat} {nd nd' : TNode}
    (hn : w.tnodes[n]? = Option.some nd) (hal : nd'.alive = nd.alive) :
    ∀ (m : Nat) (md : TNode), (w.setT n nd').tnodes[m]? = Option.some md →
      md.alive = true → ∃ md0 : TNode, w.tnodes[m]? = Option.some md0 ∧
        md0.alive = true := by
  intro m md hm hmal
  by_cases hmn : m = n
  · subst hmn
    rw [getT_setT_self hn] at hm
    cases hm
    exact ⟨nd, hn, hal ▸ hmal⟩
  · rw [getT_setT_ne _ (fun he => hmn he.symm)] at hm
    exact ⟨md, hm, hmal⟩

theorem TInv_startDriver {w : TopoWorld} {n : Nat} {url : String} {nd : TNode}
    (hn : w.tnodes[n]? = Option.some nd) (hI : TInv w) :
    TInv (w.setT n
      { nd with collection := classifyCollection url, pending := true }) := by
  refine ⟨ParentsOk_setT hn rfl rfl rfl hI.par, ?_, ?_, ?_,
    chOk_setT hn rfl rfl rfl hI.chOk, sib_setT hn rfl rfl rfl hI.sib,
    nodup_setT hn rfl rfl hI.nodup,
    rootRef_setT hn rfl (Or.inl rfl) hI.rootRef⟩
  · intro m md hm hal href
    refine sourceWalk_setColl_isSome { nd with collection := classifyCollection url, pending := true } hn rfl (classifyCollection_ne_none url) (m + 1) m ?_
    by_cases hmn : m = n
    · subst hmn
      rw [getT_setT_self hn] at hm
      cases hm
      exact hI.refWalk m nd hn hal href
    · rw [getT_setT_ne _ (fun he => hmn he.symm)] at hm
      exact hI.refWalk m md hm hal href
  · intro m md hm hal hm0
    refine sourceWalk_setColl_isSome { nd with collection := classifyCollection url, pending := true } hn rfl (classifyCollection_ne_none url) (m + 1) m ?_
    by_cases hmn : m = n
    · subst hmn
      rw [getT_setT_self hn] at hm
      cases hm
      exact hI.selfWalk m nd hn hal hm0
    · rw [getT_setT_ne _ (fun he => hmn he.symm)] at hm
      exact hI.selfWalk m md hm hal hm0
  · intro m md hm hp
    by_cases hmn : m = n
    · subst hmn
      rw [getT_setT_self hn] at hm
      cases hm
      exact classifyCollection_ne_none url
    · rw [getT_setT_ne _ (fun he => hmn he.symm)] at hm
      exact hI.pend m md hm hp

theorem TInv_runnerStart {w : TopoWorld} {n : Nat} {nd : TNode}
    (hn : w.tnodes[n]? = Option.some nd) (hpend : nd.pending = true)
    (hI : TInv w) :
    TInv (w.setT n { nd with pending := false, hasNodeRef := true }) := by
  have hview := sourceWalk_setT_view { nd with pending := false, hasNodeRef := true } hI.par hn rfl rfl
  have hcoll : nd.collection ≠ Collection.none := hI.pend n nd hn hpend
  refine ⟨ParentsOk_setT hn rfl rfl rfl hI.par, ?_, ?_, ?_,
    chOk_setT hn rfl rfl rfl hI.chOk, sib_setT hn rfl rfl rfl hI.sib,
    nodup_setT hn rfl rfl hI.nodup,
    rootRef_setT hn rfl (Or.inr rfl) hI.rootRef⟩
  · intro m md hm hal href
    by_cases hmn : m = n
    · subst hmn
      rw [sourceWalk_succ_coll m (getT_setT_self hn { nd with pending := false, hasNodeRef := true }) (show ({ nd with pending := false, hasNodeRef := true } : TNode).collection ≠ Collection.none from hcoll)]
      rfl
    · rw [getT_setT_ne _ (fun he => hmn he.symm)] at hm
      rw [hview (m + 1) m md hm hal]
      exact hI.refWalk m md hm hal href
  · intro m md hm hal hm0'
    by_cases hmn : m = n
    · subst hmn
      rw [sourceWalk_succ_coll m (getT_setT_self hn { nd with pending := false, hasNodeRef := true }) (show ({ nd with pending := false, hasNodeRef := true } : TNode).collection ≠ Collection.none from hcoll)]
      rfl
    · rw [getT_setT_ne _ (fun he => hmn he.symm)] at hm
      rw [hview (m + 1) m md hm hal]
      exact hI.selfWalk m md hm hal hm0'
  · intro m md hm hp
    by_cases hmn : m = n
    · subst hmn
      rw [getT_setT_self hn] at hm
      cases hm
      simp at hp
    · rw [getT_setT_ne _ (fun he => hmn he.symm)] at hm
      exact hI.pend m md hm hp

theorem TInv_beginRemove {w : TopoWorld} {n : Nat} {nd : TNode}
    (hn : w.tnodes[n]? = Option.some nd) (hI : TInv w) :
    TInv (w.setT n { nd with hasBinder := false }) := by
  have hview := sourceWalk_setT_view { nd with hasBinder := false } hI.par hn rfl rfl
  refine ⟨ParentsOk_setT hn rfl rfl rfl hI.par, ?_, ?_, ?_,
    chOk_setT hn rfl rfl rfl hI.chOk, sib_setT hn rfl rfl rfl hI.sib,
    nodup_setT hn rfl rfl hI.nodup,
    rootRef_setT hn rfl (Or.inl rfl) hI.rootRef⟩
  · intro m md hm hal href
    by_cases hmn : m = n
    · subst hmn
      rw [getT_setT_self hn] at hm
      cases hm
      rw [hview (m + 1) m nd hn hal]
      exact hI.refWalk m nd hn hal href
    · rw [getT_setT_ne _ (fun he => hmn he.symm)] at hm
      rw [hview (m + 1) m md hm hal]
      exact hI.refWalk m md hm hal href
  · intro m md hm hal hm0'
    by_cases hmn : m = n
    · subst hmn
      rw [getT_setT_self hn] at hm
      cases hm
      rw [hview (m + 1) m nd hn hal]
      exact hI.selfWalk m nd hn hal hm0'
    · rw [getT_setT_ne _ (fun he => hmn he.symm)] at hm
      rw [hview (m + 1) m md hm hal]
      exact hI.selfWalk m md hm hal hm0'
  · intro m md hm hp
    by_cases hmn : m = n
    · subst hmn
      rw [getT_setT_self hn] at hm
      cases hm
      exact hI.pend m nd hn hp
    · rw [getT_setT_ne _ (fun he => hmn he.symm)] at hm
      exact hI.pend m md hm hp

theorem TInv_addChild {w : TopoWorld} {p : Nat} {nd : TNode} {name : String}
    {deferred : Bool} {offers : List String}
    (hp : w.tnodes[p]? = Option.some nd) (halive : nd.alive = true)
    (href : nd.hasNodeRef = true)
    (hname : ∀ c ∈ nd.children, ∀ cd, w.tnodes[c]? = Option.some cd →
      cd.tname ≠ name)
    (hI : TInv w) :
    TInv ⟨(w.tnodes.set p
        { nd with children := nd.children ++ [w.tnodes.length] }) ++
      [⟨name, [p], [], Collection.none, deferred, false, false, true, true,
        offers⟩]⟩ := by
  set len := w.tnodes.length with hlendef
  set upd : TNode := { nd with children := nd.children ++ [len] } with hupddef
  set child : TNode := ⟨name, [p], [], Collection.none, deferred, false, false,
    true, true, offers⟩ with hchilddef
  set w' : TopoWorld := ⟨(w.tnodes.set p upd) ++ [child]⟩ with hw'def
  have hplt : p < len := getT_lt hp
  have hsetlen : (w.tnodes.set p upd).length = len := by
    simp [hlendef]
  have hg_p : w'.tnodes[p]? = Option.some upd := by
    show ((w.tnodes.set p upd) ++ [child])[p]? = _
    rw [getT_append_lt (by omega), getT_set_self hplt]
  have hg_new : w'.tnodes[len]? = Option.some child := by
    show ((w.tnodes.set p upd) ++ [child])[len]? = _
    rw [← hsetlen]
    exact List.getElem?_concat_length _ _
  have hg_old : ∀ j, j ≠ p → j < len → w'.tnodes[j]? = w.tnodes[j]? := by
    intro j hjp hjl
    show ((w.tnodes.set p upd) ++ [child])[j]? = _
    rw [getT_append_lt (by omega), getT_set_ne _ (fun he => hjp he.symm)]
  have hg_tr : ∀ (j : Nat) (jd : TNode), w'.tnodes[j]? = Option.some jd →
      (j = len ∧ jd = child) ∨ (j = p ∧ jd = upd ∧ j < len) ∨
      (j ≠ p ∧ j < len ∧ w.tnodes[j]? = Option.some jd) := by
    intro j jd hj
    have hjlt : j < len + 1 := by
      have := getT_lt hj
      simpa [hsetlen] using this
    by_cases hjlen : j = len
    · subst hjlen
      rw [hg_new] at hj
      cases hj
      exact Or.inl ⟨rfl, rfl⟩
    · have hjl : j < len := by omega
      by_cases hjp : j = p
      · subst hjp
        rw [hg_p] at hj
        cases hj
        exact Or.inr (Or.inl ⟨rfl, rfl, hjl⟩)
      · rw [hg_old j hjp hjl] at hj
        exact Or.inr (Or.inr ⟨hjp, hjl, hj⟩)
  have hchsub : ∀ c ∈ nd.children, c < len ∧ c ≠ len := by
    intro c hc
    obtain ⟨cd, hcd, -, -⟩ := hI.chOk p nd hp c hc
    have := getT_lt hcd
    exact ⟨this, by omega⟩
  -- parent coherence in the new world
  have hpar' : ParentsOk w' := by
    intro m md hm hmal q hq
    rcases hg_tr m md hm with ⟨rfl, rfl⟩ | ⟨rfl, rfl, hl⟩ | ⟨hmp, hml, hm0⟩
    · -- the new child: sole parent p
      have hq' : q = p := by simpa [hchilddef] using hq
      subst hq'
      refine ⟨hplt, upd, hg_p, halive, ?_⟩
      simp [hupddef]
    · -- the parent node: parents unchanged
      have hq' : q ∈ nd.parents := hq
      obtain ⟨hlt, qd, hqd, hqal, hmm⟩ := hI.par m nd hp halive q hq'
      have hqlt : q < len := getT_lt hqd
      have hqp : q ≠ m := by omega
      rw [← hg_old q hqp hqlt] at hqd
      exact ⟨hlt, qd, hqd, hqal, hmm⟩
    · obtain ⟨hlt, qd, hqd, hqal, hmm⟩ := hI.par m md hm0 hmal q hq
      have hqlt : q < len := getT_lt hqd
      by_cases hqp : q = p
      · subst hqp
        rw [hp] at hqd
        cases hqd
        refine ⟨hlt, upd, hg_p, halive, ?_⟩
        simp only [hupddef]
        exact List.mem_append_left _ hmm
      · rw [← hg_old q hqp hqlt] at hqd
        exact ⟨hlt, qd, hqd, hqal, hmm⟩
  -- walks from old live nodes are unchanged
  have hstable : ∀ (f m : Nat) (md : TNode), w.tnodes[m]? = Option.some md →
      md.alive = true → sourceWalk w' f m = sourceWalk w f m := by
    intro f m md hm hmal
    refine sourceWalk_stable len hI.par ?_ ?_ f m md hm hmal
      (by have := getT_lt hm; omega)
    · intro j hj hjne
      by_cases hjp : j = p
      · subst hjp
        rw [hg_p, hp]
        simp [hupddef]
      · rw [hg_old j hjp hj]
    · intro bd hbd
      rw [getT_len_none] at hbd
      exact Option.noConfusion hbd
  have hwalkChild : (sourceWalk w' (len + 1) len).isSome = true := by
    rw [sourceWalk_succ_go len hg_new (by simp [hchilddef])]
    have hhd : child.parents.head? = Option.some p := by simp [hchilddef]
    simp only [hchilddef]
    show (sourceWalk w' len p).isSome = true
    have h1 : sourceWalk w (p + 1) p = sourceWalk w' (p + 1) p :=
      (hstable (p + 1) p nd hp halive).symm
    have h2 : sourceWalk w' len p = sourceWalk w' (p + 1) p := by
      by_cases hlenp : len = p + 1
      · rw [hlenp]
      · refine sourceWalk_fuel_eq hpar' p upd hg_p halive len (p + 1)
          (by omega) (by omega)
    rw [h2, ← h1]
    exact hI.refWalk p nd hp halive href
  refine ⟨hpar', ?_, ?_, ?_, ?_, ?_, ?_, ?_⟩
  · intro m md hm hmal hmr
    rcases hg_tr m md hm with ⟨rfl, rfl⟩ | ⟨rfl, rfl, hl⟩ | ⟨hmp, hml, hm0⟩
    · exact hwalkChild
    · rw [hstable (m + 1) m nd hp halive]
      exact hI.refWalk m nd hp halive href
    · rw [hstable (m + 1) m md hm0 hmal]
      exact hI.refWalk m md hm0 hmal hmr
  · intro m md hm hmal hm0'
    rcases hg_tr m md hm with ⟨rfl, rfl⟩ | ⟨rfl, rfl, hl⟩ | ⟨hmp, hml, hm0⟩
    · exact hwalkChild
    · rw [hstable (m + 1) m nd hp halive]
      by_cases hp0 : m = 0
      · subst hp0
        -- the root can only be an AddChild target once it has a node
        -- reference, which implies its walk succeeds
        exact hI.refWalk 0 nd hp halive href
      · exact hI.selfWalk m nd hp halive hp0
    · rw [hstable (m + 1) m md hm0 hmal]
      exact hI.selfWalk m md hm0 hmal hm0'
  · intro m md hm hmp'
    rcases hg_tr m md hm with ⟨rfl, rfl⟩ | ⟨rfl, rfl, hl⟩ | ⟨hmp, hml, hm0⟩
    · simp [hchilddef] at hmp'
    · exact hI.pend m nd hp hmp'
    · exact hI.pend m md hm0 hmp'
  · intro q qd hq c hc
    rcases hg_tr q qd hq with ⟨rfl, rfl⟩ | ⟨rfl, rfl, hl⟩ | ⟨hqp, hql, hq0⟩
    · simp [hchilddef] at hc
    · -- children of the AddChild target: old children plus the new child
      simp only [hupddef] at hc
      rcases List.mem_append.mp hc with hco | hcn
      · obtain ⟨cd, hcd, hcal, hcp⟩ := hI.chOk q nd hp c hco
        have hclt : c < len := getT_lt hcd
        by_cases hcq : c = q
        · subst hcq
          rw [hp] at hcd
          cases hcd
          exact ⟨upd, hg_p, halive, hcp⟩
        · rw [← hg_old c hcq hclt] at hcd
          exact ⟨cd, hcd, hcal, hcp⟩
      · have hc' : c = len := by simpa using hcn
        subst hc'
        exact ⟨child, hg_new, rfl, by simp [hchilddef]⟩
    · obtain ⟨cd, hcd, hcal, hcp⟩ := hI.chOk q qd hq0 c hc
      have hclt : c < len := getT_lt hcd
      by_cases hcp' : c = p
      · subst hcp'
        rw [hp] at hcd
        cases hcd
        exact ⟨upd, hg_p, halive, hcp⟩
      · rw [← hg_old c hcp' hclt] at hcd
        exact ⟨cd, hcd, hcal, hcp⟩
  · intro q qd hq c1 hc1 c2 hc2 hcne cd1 cd2 hcd1 hcd2 hv1 hv2
    -- translate a child record of the new world to name and composite flag
    -- in the old world, or identify it as the new child
    have tr : ∀ (c : Nat) (cd : TNode), w'.tnodes[c]? = Option.some cd →
        (c = len ∧ cd.tname = name ∧ cd.viaComposite = false) ∨
        (c < len ∧ ∃ cd0 : TNode, w.tnodes[c]? = Option.some cd0 ∧
          cd0.tname = cd.tname ∧ cd0.viaComposite = cd.viaComposite) := by
      intro c cd hcd
      rcases hg_tr c cd hcd with ⟨rfl, rfl⟩ | ⟨rfl, rfl, hl⟩ | ⟨hcp, hcl, hc0⟩
      · exact Or.inl ⟨rfl, by simp [hchilddef], by simp [hchilddef]⟩
      · exact Or.inr ⟨hl, nd, hp, rfl, rfl⟩
      · exact Or.inr ⟨hcl, cd, hc0, rfl, rfl⟩
    -- identify the parent's children in the old world
    rcases hg_tr q qd hq with ⟨rfl, rfl⟩ | ⟨rfl, rfl, hl⟩ | ⟨hqp, hql, hq0⟩
    · simp [hchilddef] at hc1
    · simp only [hupddef] at hc1 hc2
      rcases List.mem_append.mp hc1 with h1o | h1n <;>
        rcases List.mem_append.mp hc2 with h2o | h2n
      · rcases tr c1 cd1 hcd1 with ⟨he1, -, -⟩ | ⟨hc1l, cd1', hcd1', hn1, hv1'⟩
        · exact absurd he1 (hchsub c1 h1o).2
        · rcases tr c2 cd2 hcd2 with ⟨he2, -, -⟩ |
            ⟨hc2l, cd2', hcd2', hn2, hv2'⟩
          · exact absurd he2 (hchsub c2 h2o).2
          · have := hI.sib q nd hp c1 h1o c2 h2o hcne cd1' cd2' hcd1' hcd2'
              (hv1'.trans hv1) (hv2'.trans hv2)
            rw [hn1, hn2] at this
            exact this
      · -- c2 is the new child: its name is `name`, which differs from every
        -- existing child's name by the AddChild duplicate check
        have hc2' : c2 = len := by simpa using h2n
        have hcd2c : cd2 = child := by
          rw [hc2', hg_new] at hcd2
          exact (Option.some.inj hcd2).symm
        rcases tr c1 cd1 hcd1 with ⟨he1, -, -⟩ | ⟨hc1l, cd1', hcd1', hn1, -⟩
        · exact absurd he1 (hchsub c1 h1o).2
        · have h := hname c1 h1o cd1' hcd1'
          rw [hn1] at h
          rw [hcd2c]
          simpa [hchilddef] using h
      · have hc1' : c1 = len := by simpa using h1n
        have hcd1c : cd1 = child := by
          rw [hc1', hg_new] at hcd1
          exact (Option.some.inj hcd1).symm
        rcases tr c2 cd2 hcd2 with ⟨he2, -, -⟩ | ⟨hc2l, cd2', hcd2', hn2, -⟩
        · exact absurd he2 (hchsub c2 h2o).2
        · have h := hname c2 h2o cd2' hcd2'
          rw [hn2] at h
          rw [hcd1c]
          intro he
          exact h (by simpa [hchilddef] using he.symm)
      · have hc1' : c1 = len := by simpa using h1n
        have hc2' : c2 = len := by simpa using h2n
        exact absurd (hc1'.trans hc2'.symm) hcne
    · have h1 : ∃ cd0 : TNode, w.tnodes[c1]? = Option.some cd0 ∧
          cd0.tname = cd1.tname ∧ cd0.viaComposite = cd1.viaComposite := by
        rcases tr c1 cd1 hcd1 with ⟨he1, -, -⟩ | ⟨-, cd0, h0, hn, hv⟩
        · obtain ⟨cd, hcd, -, -⟩ := hI.chOk q qd hq0 c1 hc1
          rw [he1, getT_len_none] at hcd
          exact Option.noConfusion hcd
        · exact ⟨cd0, h0, hn, hv⟩
      have h2 : ∃ cd0 : TNode, w.tnodes[c2]? = Option.some cd0 ∧
          cd0.tname = cd2.tname ∧ cd0.viaComposite = cd2.viaComposite := by
        rcases tr c2 cd2 hcd2 with ⟨he2, -, -⟩ | ⟨-, cd0, h0, hn, hv⟩
        · obtain ⟨cd, hcd, -, -⟩ := hI.chOk q qd hq0 c2 hc2
          rw [he2, getT_len_none] at hcd
          exact Option.noConfusion hcd
        · exact ⟨cd0, h0, hn, hv⟩
      obtain ⟨cd1', hcd1', hn1, hv1'⟩ := h1
      obtain ⟨cd2', hcd2', hn2, hv2'⟩ := h2
      have := hI.sib q qd hq0 c1 hc1 c2 hc2 hcne cd1' cd2' hcd1' hcd2'
        (hv1'.trans hv1) (hv2'.trans hv2)
      rw [hn1, hn2] at this
      exact this
  · intro q qd hq
    rcases hg_tr q qd hq with ⟨rfl, rfl⟩ | ⟨rfl, rfl, hl⟩ | ⟨hqp, hql, hq0⟩
    · constructor <;> simp [hchilddef]
    · obtain ⟨hcn, hpn⟩ := hI.nodup q nd hp
      refine ⟨?_, hpn⟩
      simp only [hupddef]
      rw [List.nodup_append]
      refine ⟨hcn, List.nodup_singleton _, ?_⟩
      intro c hc
      have := (hchsub c hc).2
      simp [this]
    · exact hI.nodup q qd hq0
  · intro rd hrd hrch
    rcases hg_tr 0 rd hrd with ⟨h0len, -⟩ | ⟨h0p, hrdu, -⟩ | ⟨h0p, h0l, h0⟩
    · exact absurd h0len.symm (by omega)
    · rw [hrdu]
      exact href
    · exact hI.rootRef rd h0 hrch

theorem TInv_composite {w : TopoWorld} {ps : List Nat} (hne : ps ≠ [])
    (hnodup : ps.Nodup)
    (hmem : ∀ p ∈ ps, ∃ pd, w.tnodes[p]? = Option.some pd ∧
      pd.alive = true ∧ p ≠ 0)
    (hI : TInv w) :
    TInv ⟨attachAll w.tnodes.length w.tnodes ps ++
      [⟨"composite", ps, [], Collection.none, false, false, true, true, true,
        []⟩]⟩ := by
  set len := w.tnodes.length with hlendef
  set comp : TNode := ⟨"composite", ps, [], Collection.none, false, false,
    true, true, true, []⟩ with hcompdef
  set A : List TNode := attachAll len w.tnodes ps with hAdef
  set w' : TopoWorld := ⟨A ++ [comp]⟩ with hw'def
  have hAlen : A.length = len := by
    rw [hAdef]
    exact attachAll_length len ps w.tnodes
  have hg_len : w'.tnodes[len]? = Option.some comp := by
    show (A ++ [comp])[len]? = _
    rw [← hAlen]
    exact List.getElem?_concat_length _ _
  have hg_ps : ∀ p ∈ ps, ∀ (pd : TNode), w.tnodes[p]? = Option.some pd →
      w'.tnodes[p]? =
        Option.some { pd with children := pd.children ++ [len] } := by
    intro p hpmem pd hpd
    have hplt : p < len := getT_lt hpd
    show (A ++ [comp])[p]? = _
    rw [getT_append_lt (by omega)]
    rw [hAdef]
    exact attachAll_get_mem len ps w.tnodes p pd hnodup hpmem hpd
  have hg_not : ∀ j, j ∉ ps → j < len → w'.tnodes[j]? = w.tnodes[j]? := by
    intro j hj hjl
    show (A ++ [comp])[j]? = _
    rw [getT_append_lt (by omega), hAdef]
    exact attachAll_get_not_mem len ps w.tnodes j hj
  have hg_tr : ∀ (j : Nat) (jd : TNode), w'.tnodes[j]? = Option.some jd →
      (j = len ∧ jd = comp) ∨
      (j < len ∧ ∃ jd0 : TNode, w.tnodes[j]? = Option.some jd0 ∧
        ((j ∈ ps ∧ jd = { jd0 with children := jd0.children ++ [len] }) ∨
         (j ∉ ps ∧ jd = jd0))) := by
    intro j jd hj
    have hjlt : j < len + 1 := by
      have := getT_lt hj
      have h2 : w'.tnodes.length = len + 1 := by
        show (A ++ [comp]).length = len + 1
        simp [hAlen]
      omega
    by_cases hjlen : j = len
    · subst hjlen
      rw [hg_len] at hj
      exact Or.inl ⟨rfl, (Option.some.inj hj).symm⟩
    · have hjl : j < len := by omega
      refine Or.inr ⟨hjl, ?_⟩
      by_cases hjps : j ∈ ps
      · obtain ⟨pd, hpd, -, -⟩ := hmem j hjps
        rw [hg_ps j hjps pd hpd] at hj
        exact ⟨pd, hpd, Or.inl ⟨hjps, (Option.some.inj hj).symm⟩⟩
      · rw [hg_not j hjps hjl] at hj
        exact ⟨jd, hj, Or.inr ⟨hjps, rfl⟩⟩
  have hchsub : ∀ (q : Nat) (qd : TNode), w.tnodes[q]? = Option.some qd →
      ∀ c ∈ qd.children, c < len := by
    intro q qd hq c hc
    obtain ⟨cd, hcd, -, -⟩ := hI.chOk q qd hq c hc
    exact getT_lt hcd
  -- parent coherence in the new world
  have hpar' : ParentsOk w' := by
    intro m md hm hmal q hq
    rcases hg_tr m md hm with ⟨rfl, rfl⟩ |
      ⟨hml, md0, hmd0, ⟨hmps, rfl⟩ | ⟨hmps, rfl⟩⟩
    · -- the new composite node: parents are exactly ps
      have hq' : q ∈ ps := hq
      obtain ⟨qd, hqd, hqal, -⟩ := hmem q hq'
      have hqlt : q < len := getT_lt hqd
      refine ⟨by omega, { qd with children := qd.children ++ [len] },
        hg_ps q hq' qd hqd, hqal, ?_⟩
      simp
    · have hq' : q ∈ md0.parents := hq
      obtain ⟨hlt, qd, hqd, hqal, hmm⟩ := hI.par m md0 hmd0 hmal q hq'
      by_cases hqps : q ∈ ps
      · refine ⟨hlt, { qd with children := qd.children ++ [len] },
          hg_ps q hqps qd hqd, hqal, ?_⟩
        exact List.mem_append_left _ hmm
      · rw [← hg_not q hqps (getT_lt hqd)] at hqd
        exact ⟨hlt, qd, hqd, hqal, hmm⟩
    · obtain ⟨hlt, qd, hqd, hqal, hmm⟩ := hI.par m md hmd0 hmal q hq
      by_cases hqps : q ∈ ps
      · refine ⟨hlt, { qd with children := qd.children ++ [len] },
          hg_ps q hqps qd hqd, hqal, ?_⟩
        exact List.mem_append_left _ hmm
      · rw [← hg_not q hqps (getT_lt hqd)] at hqd
        exact ⟨hlt, qd, hqd, hqal, hmm⟩
  -- walks from old live nodes are unchanged
  have hstable : ∀ (f m : Nat) (md : TNode), w.tnodes[m]? = Option.some md →
      md.alive = true → sourceWalk w' f m = sourceWalk w f m := by
    intro f m md hm hmal
    refine sourceWalk_stable len hI.par ?_ ?_ f m md hm hmal
      (by have := getT_lt hm; omega)
    · intro j hj hjne
      by_cases hjps : j ∈ ps
      · obtain ⟨pd, hpd, -, -⟩ := hmem j hjps
        rw [hg_ps j hjps pd hpd, hpd]
        simp
      · rw [hg_not j hjps hj]
    · intro bd hbd
      rw [getT_len_none] at hbd
      exact Option.noConfusion hbd
  obtain ⟨p0, hp0, hp0mem⟩ : ∃ p0, ps.head? = Option.some p0 ∧ p0 ∈ ps := by
    cases hps : ps with
    | nil => exact absurd hps hne
    | cons a l => exact ⟨a, rfl, List.mem_cons_self a l⟩
  obtain ⟨pd0, hpd0, hpd0al, hp0ne⟩ := hmem p0 hp0mem
  have hwalkComp : (sourceWalk w' (len + 1) len).isSome = true := by
    rw [sourceWalk_succ_go len hg_len (by simp [hcompdef])]
    have hchd : comp.parents.head? = Option.some p0 := by
      rw [hcompdef]
      exact hp0
    simp only [hchd]
    show (sourceWalk w' len p0).isSome = true
    have h1 : sourceWalk w (p0 + 1) p0 = sourceWalk w' (p0 + 1) p0 :=
      (hstable (p0 + 1) p0 pd0 hpd0 hpd0al).symm
    have h2 : sourceWalk w' len p0 = sourceWalk w' (p0 + 1) p0 :=
      sourceWalk_fuel_eq hpar' p0
        { pd0 with children := pd0.children ++ [len] }
        (hg_ps p0 hp0mem pd0 hpd0) hpd0al len (p0 + 1)
        (getT_lt hpd0) (by omega)
    rw [h2, ← h1]
    exact hI.selfWalk p0 pd0 hpd0 hpd0al hp0ne
  refine ⟨hpar', ?_, ?_, ?_, ?_, ?_, ?_, ?_⟩
  · intro m md hm hmal hmr
    rcases hg_tr m md hm with ⟨rfl, rfl⟩ |
      ⟨hml, md0, hmd0, ⟨hmps, rfl⟩ | ⟨hmps, rfl⟩⟩
    · exact hwalkComp
    · rw [hstable (m + 1) m md0 hmd0 hmal]
      exact hI.refWalk m md0 hmd0 hmal hmr
    · rw [hstable (m + 1) m md hmd0 hmal]
      exact hI.refWalk m md hmd0 hmal hmr
  · intro m md hm hmal hm0'
    rcases hg_tr m md hm with ⟨rfl, rfl⟩ |
      ⟨hml, md0, hmd0, ⟨hmps, rfl⟩ | ⟨hmps, rfl⟩⟩
    · exact hwalkComp
    · rw [hstable (m + 1) m md0 hmd0 hmal]
      exact hI.selfWalk m md0 hmd0 hmal hm0'
    · rw [hstable (m + 1) m md hmd0 hmal]
      exact hI.selfWalk m md hmd0 hmal hm0'
  · intro m md hm hmp'
    rcases hg_tr m md hm with ⟨rfl, rfl⟩ |
      ⟨hml, md0, hmd0, ⟨hmps, rfl⟩ | ⟨hmps, rfl⟩⟩
    · rw [hcompdef] at hmp'
      simp at hmp'
    · exact hI.pend m md0 hmd0 hmp'
    · exact hI.pend m md hmd0 hmp'
  · intro q qd hq c hc
    rcases hg_tr q qd hq with ⟨rfl, rfl⟩ |
      ⟨hql, qd0, hqd0, ⟨hqps, rfl⟩ | ⟨hqps, rfl⟩⟩
    · rw [hcompdef] at hc
      simp at hc
    · -- children of an attached parent: old children plus the composite
      have hc' : c ∈ qd0.children ++ [len] := hc
      rcases List.mem_append.mp hc' with hco | hcn
      · obtain ⟨cd, hcd, hcal, hcp⟩ := hI.chOk q qd0 hqd0 c hco
        by_cases hcps : c ∈ ps
        · refine ⟨{ cd with children := cd.children ++ [len] },
            hg_ps c hcps cd hcd, hcal, hcp⟩
        · rw [← hg_not c hcps (getT_lt hcd)] at hcd
          exact ⟨cd, hcd, hcal, hcp⟩
      · have hc'' : c = len := by simpa using hcn
        subst hc''
        exact ⟨comp, hg_len, rfl, hqps⟩
    · obtain ⟨cd, hcd, hcal, hcp⟩ := hI.chOk q qd hqd0 c hc
      by_cases hcps : c ∈ ps
      · refine ⟨{ cd with children := cd.children ++ [len] },
          hg_ps c hcps cd hcd, hcal, hcp⟩
      · rw [← hg_not c hcps (getT_lt hcd)] at hcd
        exact ⟨cd, hcd, hcal, hcp⟩
  · intro q qd hq c1 hc1 c2 hc2 hcne cd1 cd2 hcd1 hcd2 hv1 hv2
    have tr : ∀ (c : Nat) (cd : TNode), w'.tnodes[c]? = Option.some cd →
        c ≠ len → ∃ cd0 : TNode, w.tnodes[c]? = Option.some cd0 ∧
          cd0.tname = cd.tname ∧ cd0.viaComposite = cd.viaComposite := by
      intro c cd hcd hcl
      rcases hg_tr c cd hcd with ⟨rfl, rfl⟩ |
        ⟨hcl', cd0, hcd0, ⟨hcps, rfl⟩ | ⟨hcps, rfl⟩⟩
      · exact absurd rfl hcl
      · exact ⟨cd0, hcd0, rfl, rfl⟩
      · exact ⟨cd, hcd0, rfl, rfl⟩
    rcases hg_tr q qd hq with ⟨rfl, rfl⟩ |
      ⟨hql, qd0, hqd0, ⟨hqps, rfl⟩ | ⟨hqps, rfl⟩⟩
    · rw [hcompdef] at hc1
      simp at hc1
    · have hc1' : c1 ∈ qd0.children ++ [len] := hc1
      have hc2' : c2 ∈ qd0.children ++ [len] := hc2
      rcases List.mem_append.mp hc1' with h1o | h1n
      · rcases List.mem_append.mp hc2' with h2o | h2n
        · have hne1 : c1 ≠ len := by
            have := hchsub q qd0 hqd0 c1 h1o
            omega
          have hne2 : c2 ≠ len := by
            have := hchsub q qd0 hqd0 c2 h2o
            omega
          obtain ⟨cd1', hcd1', hn1, hv1'⟩ := tr c1 cd1 hcd1 hne1
          obtain ⟨cd2', hcd2', hn2, hv2'⟩ := tr c2 cd2 hcd2 hne2
          have := hI.sib q qd0 hqd0 c1 h1o c2 h2o hcne cd1' cd2' hcd1' hcd2'
            (hv1'.trans hv1) (hv2'.trans hv2)
          rw [hn1, hn2] at this
          exact this
        · -- c2 is the composite: its viaComposite flag is true
          have hc2'' : c2 = len := by simpa using h2n
          have : cd2 = comp := by
            rw [hc2'', hg_len] at hcd2
            exact (Option.some.inj hcd2).symm
          rw [this, hcompdef] at hv2
          simp at hv2
      · have hc1'' : c1 = len := by simpa using h1n
        have : cd1 = comp := by
          rw [hc1'', hg_len] at hcd1
          exact (Option.some.inj hcd1).symm
        rw [this, hcompdef] at hv1
        simp at hv1
    · have hne1 : c1 ≠ len := by
        have := hchsub q qd hqd0 c1 hc1
        omega
      have hne2 : c2 ≠ len := by
        have := hchsub q qd hqd0 c2 hc2
        omega
      obtain ⟨cd1', hcd1', hn1, hv1'⟩ := tr c1 cd1 hcd1 hne1
      obtain ⟨cd2', hcd2', hn2, hv2'⟩ := tr c2 cd2 hcd2 hne2
      have := hI.sib q qd hqd0 c1 hc1 c2 hc2 hcne cd1' cd2' hcd1' hcd2'
        (hv1'.trans hv1) (hv2'.trans hv2)
      rw [hn1, hn2] at this
      exact this
  · intro q qd hq
    rcases hg_tr q qd hq with ⟨rfl, rfl⟩ |
      ⟨hql, qd0, hqd0, ⟨hqps, rfl⟩ | ⟨hqps, rfl⟩⟩
    · rw [hcompdef]
      exact ⟨List.nodup_nil, hnodup⟩
    · obtain ⟨hcn, hpn⟩ := hI.nodup q qd0 hqd0
      refine ⟨?_, hpn⟩
      show (qd0.children ++ [len]).Nodup
      rw [List.nodup_append]
      refine ⟨hcn, List.nodup_singleton _, ?_⟩
      intro c hcmem
      have := hchsub q qd0 hqd0 c hcmem
      simp
      omega
    · exact hI.nodup q qd hqd0
  · intro rd hrd hrch
    rcases hg_tr 0 rd hrd with ⟨h0len, -⟩ |
      ⟨h0l, rd0, hrd0, ⟨h0ps, hrdu⟩ | ⟨h0ps, hrdu⟩⟩
    · have : p0 < len := getT_lt hpd0
      omega
    · obtain ⟨-, -, -, hne0⟩ := hmem 0 h0ps
      exact absurd rfl hne0
    · rw [hrdu] at hrch ⊢
      exact hI.rootRef rd0 hrd0 hrch

theorem TInv_completeRemove {w : TopoWorld} {n : Nat} {nd : TNode}
    (hn : w.tnodes[n]? = Option.some nd) (halive : nd.alive = true)
    (hch : nd.children = []) (hI : TInv w) :
    TInv ⟨(detachAll n w.tnodes nd.parents).set n
      { nd with parents := [], alive := false, hasBinder := false }⟩ := by
  set len := w.tnodes.length with hlendef
  set ndD : TNode := { nd with parents := [], alive := false, hasBinder := false } with hndDdef
  set D : List TNode := detachAll n w.tnodes nd.parents with hDdef
  set w' : TopoWorld := ⟨D.set n ndD⟩ with hw'def
  have hnlt : n < len := getT_lt hn
  have hDlen : D.length = len := by
    rw [hDdef]
    exact detachAll_length n nd.parents w.tnodes
  have hpnodup : nd.parents.Nodup := (hI.nodup n nd hn).2
  have hplt : ∀ p ∈ nd.parents, p < n := by
    intro p hp
    exact (hI.par n nd hn halive p hp).1
  have hg_n : w'.tnodes[n]? = Option.some ndD := by
    show (D.set n ndD)[n]? = _
    exact getT_set_self (by omega) _
  have hg_par : ∀ q ∈ nd.parents, ∀ (qd : TNode),
      w.tnodes[q]? = Option.some qd → w'.tnodes[q]? =
        Option.some { qd with children := qd.children.erase n } := by
    intro q hq qd hqd
    have hqn : q ≠ n := by
      have := hplt q hq
      omega
    show (D.set n ndD)[q]? = _
    rw [getT_set_ne _ (fun he => hqn he.symm), hDdef]
    exact detachAll_get_mem n nd.parents w.tnodes q qd hpnodup hq hqd
  have hg_keep : ∀ j, j ≠ n → j ∉ nd.parents →
      w'.tnodes[j]? = w.tnodes[j]? := by
    intro j hjn hjp
    show (D.set n ndD)[j]? = _
    rw [getT_set_ne _ (fun he => hjn he.symm), hDdef]
    exact detachAll_get_not_mem n nd.parents w.tnodes j hjp
  have htr : ∀ (j : Nat) (jd : TNode), w'.tnodes[j]? = Option.some jd →
      j ≠ n → ∃ jd0 : TNode, w.tnodes[j]? = Option.some jd0 ∧
        ((j ∉ nd.parents ∧ jd = jd0) ∨
         (j ∈ nd.parents ∧
           jd = { jd0 with children := jd0.children.erase n })) := by
    intro j jd hj hjn
    by_cases hjp : j ∈ nd.parents
    · obtain ⟨-, jd0, hjd0, -, -⟩ := hI.par n nd hn halive j hjp
      rw [hg_par j hjp jd0 hjd0] at hj
      exact ⟨jd0, hjd0, Or.inr ⟨hjp, (Option.some.inj hj).symm⟩⟩
    · rw [hg_keep j hjn hjp] at hj
      exact ⟨jd, hj, Or.inl ⟨hjp, rfl⟩⟩
  -- a child of any node other than `n` itself is never `n`: `n` is childless,
  -- and membership of `n` in another node's children would force that node
  -- into `n`'s (about-to-be-detached) parent list anyway
  have hchild_ne : ∀ (q : Nat) (qd0 : TNode), w.tnodes[q]? = Option.some qd0 →
      q ∉ nd.parents → ∀ c ∈ qd0.children, c ≠ n := by
    intro q qd0 hq hqp c hc he
    subst he
    obtain ⟨cd, hcd, -, hqmem⟩ := hI.chOk q qd0 hq c hc
    rw [hn] at hcd
    rw [← Option.some.inj hcd] at hqmem
    exact hqp hqmem
  have hpar' : ParentsOk w' := by
    intro m md hm hmal q hq
    by_cases hmn : m = n
    · subst hmn
      rw [hg_n] at hm
      rw [← Option.some.inj hm, hndDdef] at hmal
      simp at hmal
    · obtain ⟨md0, hmd0, hd⟩ := htr m md hm hmn
      have hmal0 : md0.alive = true := by
        rcases hd with ⟨-, rfl⟩ | ⟨-, rfl⟩ <;> exact hmal
      have hq0 : q ∈ md0.parents := by
        rcases hd with ⟨-, rfl⟩ | ⟨-, rfl⟩ <;> exact hq
      obtain ⟨hlt, qd, hqd, hqal, hqm⟩ := hI.par m md0 hmd0 hmal0 q hq0
      have hqn : q ≠ n := by
        intro he
        subst he
        rw [hn] at hqd
        rw [← Option.some.inj hqd, hch] at hqm
        exact List.not_mem_nil m hqm
      by_cases hqp : q ∈ nd.parents
      · refine ⟨hlt, { qd with children := qd.children.erase n },
          hg_par q hqp qd hqd, hqal, ?_⟩
        exact (List.mem_erase_of_ne hmn).mpr hqm
      · rw [← hg_keep q hqn hqp] at hqd
        exact ⟨hlt, qd, hqd, hqal, hqm⟩
  have hstable : ∀ (f m : Nat) (md : TNode), w.tnodes[m]? = Option.some md →
      md.alive = true → m ≠ n → sourceWalk w' f m = sourceWalk w f m := by
    intro f m md hm hmal hmn
    refine sourceWalk_stable n hI.par ?_ ?_ f m md hm hmal hmn
    · intro j hj hjn
      by_cases hjp : j ∈ nd.parents
      · obtain ⟨-, jd0, hjd0, -, -⟩ := hI.par n nd hn halive j hjp
        rw [hg_par j hjp jd0 hjd0, hjd0]
        simp
      · rw [hg_keep j hjn hjp]
    · intro bd hbd
      rw [hn] at hbd
      rw [← Option.some.inj hbd]
      exact hch
  refine ⟨hpar', ?_, ?_, ?_, ?_, ?_, ?_, ?_⟩
  · intro m md hm hmal hmr
    by_cases hmn : m = n
    · subst hmn
      rw [hg_n] at hm
      rw [← Option.some.inj hm, hndDdef] at hmal
      simp at hmal
    · obtain ⟨md0, hmd0, hd⟩ := htr m md hm hmn
      have hmal0 : md0.alive = true := by
        rcases hd with ⟨-, rfl⟩ | ⟨-, rfl⟩ <;> exact hmal
      have hmr0 : md0.hasNodeRef = true := by
        rcases hd with ⟨-, rfl⟩ | ⟨-, rfl⟩ <;> exact hmr
      rw [hstable (m + 1) m md0 hmd0 hmal0 hmn]
      exact hI.refWalk m md0 hmd0 hmal0 hmr0
  · intro m md hm hmal hm0'
    by_cases hmn : m = n
    · subst hmn
      rw [hg_n] at hm
      rw [← Option.some.inj hm, hndDdef] at hmal
      simp at hmal
    · obtain ⟨md0, hmd0, hd⟩ := htr m md hm hmn
      have hmal0 : md0.alive = true := by
        rcases hd with ⟨-, rfl⟩ | ⟨-, rfl⟩ <;> exact hmal
      rw [hstable (m + 1) m md0 hmd0 hmal0 hmn]
      exact hI.selfWalk m md0 hmd0 hmal0 hm0'
  · intro m md hm hmp'
    by_cases hmn : m = n
    · subst hmn
      rw [hg_n] at hm
      rw [← Option.some.inj hm] at hmp' ⊢
      exact hI.pend m nd hn hmp'
    · obtain ⟨md0, hmd0, hd⟩ := htr m md hm hmn
      have hmp0 : md0.pending = true := by
        rcases hd with ⟨-, rfl⟩ | ⟨-, rfl⟩ <;> exact hmp'
      have := hI.pend m md0 hmd0 hmp0
      rcases hd with ⟨-, rfl⟩ | ⟨-, rfl⟩ <;> exact this
  · intro q qd hq c hc
    by_cases hqn : q = n
    · subst hqn
      rw [hg_n] at hq
      rw [← Option.some.inj hq, hndDdef] at hc
      simp only at hc
      rw [hch] at hc
      simp at hc
    · obtain ⟨qd0, hqd0, hd⟩ := htr q qd hq hqn
      have hmain : c ∈ qd0.children ∧ c ≠ n := by
        rcases hd with ⟨hqp, rfl⟩ | ⟨hqp, rfl⟩
        · exact ⟨hc, hchild_ne q qd hqd0 hqp c hc⟩
        · have hcn : c ∈ qd0.children.erase n := hc
          have hnodupc : qd0.children.Nodup := (hI.nodup q qd0 hqd0).1
          obtain ⟨hne, hmem⟩ := (hnodupc.mem_erase_iff).mp hcn
          exact ⟨hmem, hne⟩
      obtain ⟨hc0, hcn⟩ := hmain
      obtain ⟨cd, hcd, hcal, hcq⟩ := hI.chOk q qd0 hqd0 c hc0
      by_cases hcp : c ∈ nd.parents
      · refine ⟨{ cd with children := cd.children.erase n },
          hg_par c hcp cd hcd, hcal, hcq⟩
      · rw [← hg_keep c hcn hcp] at hcd
        exact ⟨cd, hcd, hcal, hcq⟩
  · intro q qd hq c1 hc1 c2 hc2 hcne cd1 cd2 hcd1 hcd2 hv1 hv2
    by_cases hqn : q = n
    · subst hqn
      rw [hg_n] at hq
      rw [← Option.some.inj hq, hndDdef] at hc1
      simp only at hc1
      rw [hch] at hc1
      simp at hc1
    · obtain ⟨qd0, hqd0, hd⟩ := htr q qd hq hqn
      have hmain : (c1 ∈ qd0.children ∧ c1 ≠ n) ∧
          (c2 ∈ qd0.children ∧ c2 ≠ n) := by
        rcases hd with ⟨hqp, rfl⟩ | ⟨hqp, rfl⟩
        · exact ⟨⟨hc1, hchild_ne q qd hqd0 hqp c1 hc1⟩,
            ⟨hc2, hchild_ne q qd hqd0 hqp c2 hc2⟩⟩
        · have hnodupc : qd0.children.Nodup := (hI.nodup q qd0 hqd0).1
          obtain ⟨hne1, hm1⟩ := (hnodupc.mem_erase_iff).mp hc1
          obtain ⟨hne2, hm2⟩ := (hnodupc.mem_erase_iff).mp hc2
          exact ⟨⟨hm1, hne1⟩, ⟨hm2, hne2⟩⟩
      obtain ⟨⟨hc10, hc1n⟩, ⟨hc20, hc2n⟩⟩ := hmain
      obtain ⟨cd1', hcd1', hd1⟩ := htr c1 cd1 hcd1 hc1n
      obtain ⟨cd2', hcd2', hd2⟩ := htr c2 cd2 hcd2 hc2n
      have h1 : cd1'.tname = cd1.tname ∧ cd1'.viaComposite = cd1.viaComposite := by
        rcases hd1 with ⟨-, rfl⟩ | ⟨-, rfl⟩ <;> exact ⟨rfl, rfl⟩
      have h2 : cd2'.tname = cd2.tname ∧ cd2'.viaComposite = cd2.viaComposite := by
        rcases hd2 with ⟨-, rfl⟩ | ⟨-, rfl⟩ <;> exact ⟨rfl, rfl⟩
      have := hI.sib q qd0 hqd0 c1 hc10 c2 hc20 hcne cd1' cd2' hcd1' hcd2'
        (h1.2.trans hv1) (h2.2.trans hv2)
      rw [h1.1, h2.1] at this
      exact this
  · intro q qd hq
    by_cases hqn : q = n
    · subst hqn
      rw [hg_n] at hq
      rw [← Option.some.inj hq, hndDdef]
      constructor
      · simp only
        rw [hch]
        exact List.nodup_nil
      · exact List.nodup_nil
    · obtain ⟨qd0, hqd0, hd⟩ := htr q qd hq hqn
      obtain ⟨hcn, hpn⟩ := hI.nodup q qd0 hqd0
      rcases hd with ⟨-, rfl⟩ | ⟨-, rfl⟩
      · exact ⟨hcn, hpn⟩
      · exact ⟨hcn.erase n, hpn⟩
  · intro rd hrd hrch
    by_cases h0n : (0 : Nat) = n
    · rw [← h0n] at hg_n
      rw [hg_n] at hrd
      rw [← Option.some.inj hrd, hndDdef] at hrch
      simp only at hrch
      rw [hch] at hrch
      exact absurd rfl hrch
    · obtain ⟨rd0, hrd0, hd⟩ := htr 0 rd hrd h0n
      rcases hd with ⟨-, rfl⟩ | ⟨-, rfl⟩
      · exact hI.rootRef rd hrd0 hrch
      · have hrch0 : rd0.children ≠ [] := by
          intro he
          apply hrch
          show rd0.children.erase n = []
          rw [he]
          rfl
        exact hI.rootRef rd0 hrd0 hrch0

theorem TInv_init : TInv initWorld := by
  have h0 : ∀ (m : Nat) (md : TNode), initWorld.tnodes[m]? = Option.some md →
      m = 0 ∧ md = ⟨"root", [], [], Collection.none, false, false, false,
        true, true, []⟩ := by
    intro m md hm
    have hlt : m < 1 := getT_lt hm
    have hm0 : m = 0 := by omega
    subst hm0
    refine ⟨rfl, ?_⟩
    have hr : initWorld.tnodes[0]? = Option.some ⟨"root", [], [],
        Collection.none, false, false, false, true, true, []⟩ := rfl
    rw [hr] at hm
    exact (Option.some.inj hm).symm
  refine ⟨?_, ?_, ?_, ?_, ?_, ?_, ?_, ?_⟩
  · intro m md hm hal p hp
    obtain ⟨rfl, rfl⟩ := h0 m md hm
    simp at hp
  · intro m md hm hal hmr
    obtain ⟨rfl, rfl⟩ := h0 m md hm
    simp at hmr
  · intro m md hm hal hm0
    obtain ⟨rfl, -⟩ := h0 m md hm
    exact absurd rfl hm0
  · intro m md hm hmp
    obtain ⟨rfl, rfl⟩ := h0 m md hm
    simp at hmp
  · intro p pd hp c hc
    obtain ⟨rfl, rfl⟩ := h0 p pd hp
    simp at hc
  · intro p pd hp c1 hc1
    obtain ⟨rfl, rfl⟩ := h0 p pd hp
    simp at hc1
  · intro p pd hp
    obtain ⟨rfl, rfl⟩ := h0 p pd hp
    exact ⟨List.nodup_nil, List.nodup_nil⟩
  · intro rd hrd hrch
    obtain ⟨-, rfl⟩ := h0 0 rd hrd
    exact absurd rfl hrch

theorem TInv_step {w w' : TopoWorld} (h : TStep w w') (hI : TInv w) :
    TInv w' := by
  cases h with
  | startDriver n url nd hn halive => exact TInv_startDriver hn hI
  | runnerStart n nd hn hpend => exact TInv_runnerStart hn hpend hI
  | addChild p nd name deferred offers hp halive href hbind hdot hname =>
    exact TInv_addChild hp halive href hname hI
  | composite ps hne hnodup hmem => exact TInv_composite hne hnodup hmem hI
  | beginRemove n nd hn => exact TInv_beginRemove hn hI
  | completeRemove n nd hn halive hch =>
    exact TInv_completeRemove hn halive hch hI

theorem TReachable_TInv {w : TopoWorld} (h : TReachable w) : TInv w := by
  induction h with
  | refl => exact TInv_init
  | tail hr hstep IH => exact TInv_step hstep IH

/-! ## The offer-source walk (claim C5) -/
theorem collAt_spec {w : TopoWorld} {j : Nat}
    (h : collAt w j ≠ Collection.none) :
    ∃ jd, w.tnodes[j]? = Option.some jd ∧
      jd.collection ≠ Collection.none := by
  cases hj : w.tnodes[j]? with
  | none =>
    exfalso
    apply h
    simp only [collAt, hj]
  | some jd =>
    refine ⟨jd, rfl, ?_⟩
    intro he
    apply h
    simp only [collAt, hj, he]

/-- The ancestor walk computes exactly the first node of the primary-parent
chain whose collection is not `kNone` — the nearest collectioned ancestor. -/
theorem sourceWalk_eq_find (w : TopoWorld) :
    ∀ (f i : Nat), sourceWalk w f i =
      (primaryChain w f i).find?
        (fun j => decide (collAt w j ≠ Collection.none)) := by
  intro f
  induction f with
  | zero => intro i; rfl
  | succ f IH =>
    intro i
    cases hi : w.tnodes[i]? with
    | none =>
      rw [sourceWalk_succ_dead f hi]
      simp only [primaryChain, hi]
      rfl
    | some nd =>
      have hcoll : collAt w i = nd.collection := by
        simp only [collAt, hi]
      by_cases hc : nd.collection ≠ Collection.none
      · rw [sourceWalk_succ_coll f hi hc]
        simp only [primaryChain, hi]
        rw [List.find?_cons_of_pos]
        simp only [hcoll]
        exact decide_eq_true hc
      · rw [sourceWalk_succ_go f hi hc]
        simp only [primaryChain, hi]
        rw [List.find?_cons_of_neg]
        · cases hh : nd.parents.head? with
          | none => simp only [hh]; rfl
          | some p => simp only [hh]; exact IH p
        · simp only [hcoll]
          intro hdec
          exact hc (of_decide_eq_true hdec)

theorem collectParts_some :
    ∀ (xs : List (Option (List (String × SourceRef)))),
      (∀ x ∈ xs, x.isSome = true) →
      ∃ l, collectParts xs = Option.some l ∧
        ∀ b ∈ l, ∃ x ∈ xs, ∃ lx, x = Option.some lx ∧ b ∈ lx := by
  intro xs
  induction xs with
  | nil =>
    intro h
    exact ⟨[], rfl, by simp⟩
  | cons x xs IH =>
    intro h
    obtain ⟨lx, hlx⟩ :=
      Option.isSome_iff_exists.mp (h x (List.mem_cons_self x xs))
    obtain ⟨ls, hls, hmem⟩ := IH (fun y hy => h y (List.mem_cons_of_mem x hy))
    refine ⟨lx ++ ls, ?_, ?_⟩
    · simp only [collectParts, hlx, hls]
    · intro b hb
      rcases List.mem_append.mp hb with h1 | h2
      · exact ⟨x, List.mem_cons_self x xs, lx, hlx, h1⟩
      · obtain ⟨y, hy, ly, hly, hbly⟩ := hmem b h2
        exact ⟨y, List.mem_cons_of_mem x hy, ly, hly, hbly⟩

/-- C5: For every node of a reachable world on which `CreateOffers` is
invoked (any live node), the ancestor walk from each parent terminates at a
node whose collection is not `kNone` — it is exactly the nearest such
ancestor along the primary-parent chain, so the unguarded dereference of
`source_node->collection_` never hits null — and `CreateOffers` succeeds,
with every offer in the result carrying the source `ChildRef` built from the
walk target's topological name and collection name. -/
theorem createOffers_nearest_ancestor {w : TopoWorld} {n : Nat} {nd : TNode}
    (hreach : TReachable w) (hn : w.tnodes[n]? = Option.some nd)
    (halive : nd.alive = true) :
    (∀ p ∈ nd.parents, ∃ s, sourceWalk w (p + 1) p = Option.some s ∧
      (∃ snd, w.tnodes[s]? = Option.some snd ∧
        snd.collection ≠ Collection.none) ∧
      (primaryChain w (p + 1) p).find?
        (fun j => decide (collAt w j ≠ Collection.none)) = Option.some s) ∧
    (∃ l, createOffers w n = Option.some l ∧ ∀ pr ∈ l,
      ∃ p ∈ nd.parents, ∃ s snd, sourceWalk w (p + 1) p = Option.some s ∧
        w.tnodes[s]? = Option.some snd ∧
        pr.2 = ⟨topoName w (s + 1) s, CollectionName snd.collection⟩) := by
  have hI := TReachable_TInv hreach
  have hwalk : ∀ p ∈ nd.parents, (sourceWalk w (p + 1) p).isSome = true := by
    intro p hp
    obtain ⟨hplt, pd, hpd, hpal, hnmem⟩ := hI.par n nd hn halive p hp
    by_cases hp0 : p = 0
    · subst hp0
      have hrch : pd.children ≠ [] := List.ne_nil_of_mem hnmem
      have href := hI.rootRef pd hpd hrch
      exact hI.refWalk 0 pd hpd hpal href
    · exact hI.selfWalk p pd hpd hpal hp0
  have hover : ∀ p ∈ nd.parents, ∃ s snd,
      sourceWalk w (p + 1) p = Option.some s ∧
      w.tnodes[s]? = Option.some snd ∧
      snd.collection ≠ Collection.none ∧
      (primaryChain w (p + 1) p).find?
        (fun j => decide (collAt w j ≠ Collection.none)) = Option.some s := by
    intro p hp
    obtain ⟨s, hs⟩ := Option.isSome_iff_exists.mp (hwalk p hp)
    have hfind : (primaryChain w (p + 1) p).find?
        (fun j => decide (collAt w j ≠ Collection.none)) = Option.some s := by
      rw [← sourceWalk_eq_find]
      exact hs
    have hpred := @List.find?_some Nat
      (fun j => decide (collAt w j ≠ Collection.none)) s
      (primaryChain w (p + 1) p) hfind
    obtain ⟨snd, hsnd, hsc⟩ := collAt_spec (of_decide_eq_true hpred)
    exact ⟨s, snd, hs, hsnd, hsc, hfind⟩
  have hparts : ∀ x ∈ nd.parents.map (offersFor w nd), x.isSome = true := by
    intro x hx
    obtain ⟨p, hp, rfl⟩ := List.mem_map.mp hx
    obtain ⟨s, snd, hs, hsnd, -, -⟩ := hover p hp
    simp [offersFor, hs, hsnd]
  obtain ⟨l, hl, hprov⟩ :=
    collectParts_some (nd.parents.map (offersFor w nd)) hparts
  refine ⟨?_, l, ?_, ?_⟩
  · intro p hp
    obtain ⟨s, snd, hs, hsnd, hsc, hfind⟩ := hover p hp
    exact ⟨s, hs, ⟨snd, hsnd, hsc⟩, hfind⟩
  · simp only [createOffers, hn]
    exact hl
  · intro pr hpr
    obtain ⟨x, hx, lx, hxeq, hprx⟩ := hprov pr hpr
    obtain ⟨p, hp, rfl⟩ := List.mem_map.mp hx
    obtain ⟨s, snd, hs, hsnd, -, -⟩ := hover p hp
    simp only [offersFor, hs, hsnd] at hxeq
    rw [← Option.some.inj hxeq] at hprx
    obtain ⟨o, ho, rfl⟩ := List.mem_map.mp hprx
    exact ⟨p, hp, s, snd, hs, hsnd, rfl⟩

theorem C5world_reachable : TReachable C5world := by
  have h1 := TStep.startDriver initWorld 0 "fuchsia-boot://pkg"
    ⟨"root", [], [], Collection.none, false, false, false, true, true, []⟩
    rfl rfl
  have h2 := TStep.runnerStart
    (initWorld.setT 0 ⟨"root", [], [],
      classifyCollection "fuchsia-boot://pkg", false, true, false, true, true,
      []⟩) 0
    ⟨"root", [], [], classifyCollection "fuchsia-boot://pkg", false, true,
      false, true, true, []⟩ rfl rfl
  have h3 := TStep.addChild
    ((initWorld.setT 0 ⟨"root", [], [],
        classifyCollection "fuchsia-boot://pkg", false, true, false, true,
        true, []⟩).setT 0
      ⟨"root", [], [], classifyCollection "fuchsia-boot://pkg", true, false,
        false, true, true, []⟩) 0
    ⟨"root", [], [], classifyCollection "fuchsia-boot://pkg", true, false,
      false, true, true, []⟩ "a" false ["svc"] rfl rfl rfl rfl (by decide)
    (by simp)
  exact Relation.ReflTransGen.tail
    (Relation.ReflTransGen.tail
      (Relation.ReflTransGen.tail Relation.ReflTransGen.refl h1) h2) h3

theorem createOffers_nearest_ancestor_witness :
    (∀ p ∈ C5child.parents, ∃ s,
      sourceWalk C5world (p + 1) p = Option.some s ∧
      (∃ snd, C5world.tnodes[s]? = Option.some snd ∧
        snd.collection ≠ Collection.none) ∧
      (primaryChain C5world (p + 1) p).find?
        (fun j => decide (collAt C5world j ≠ Collection.none)) =
        Option.some s) ∧
    (∃ l, createOffers C5world 1 = Option.some l ∧ ∀ pr ∈ l,
      ∃ p ∈ C5child.parents, ∃ s snd,
        sourceWalk C5world (p + 1) p = Option.some s ∧
        C5world.tnodes[s]? = Option.some snd ∧
        pr.2 = ⟨topoName C5world (s + 1) s,
          CollectionName snd.collection⟩) :=
  createOffers_nearest_ancestor C5world_reachable rfl rfl

theorem C6world_reachable : TReachable C6world := by
  have h1 := TStep.startDriver initWorld 0 "fuchsia-boot://drv"
    ⟨"root", [], [], Collection.none, false, false, false, true, true, []⟩
    rfl rfl
  have h2 := TStep.runnerStart
    (initWorld.setT 0 ⟨"root", [], [],
      classifyCollection "fuchsia-boot://drv", false, true, false, true, true,
      []⟩) 0
    ⟨"root", [], [], classifyCollection "fuchsia-boot://drv", false, true,
      false, true, true, []⟩ rfl rfl
  have h3 := TStep.addChild
    ((initWorld.setT 0 ⟨"root", [], [],
        classifyCollection "fuchsia-boot://drv", false, true, false, true,
        true, []⟩).setT 0
      ⟨"root", [], [], classifyCollection "fuchsia-boot://drv", true, false,
        false, true, true, []⟩) 0
    ⟨"root", [], [], classifyCollection "fuchsia-boot://drv", true, false,
      false, true, true, []⟩ "a" false [] rfl rfl rfl rfl (by decide)
    (by simp)
  have h4 := TStep.composite
    (⟨[⟨"root", [], [1], classifyCollection "fuchsia-boot://drv", true, false,
        false, true, true, []⟩,
       ⟨"a", [0], [], Collection.none, false, false, false, true, true,
        []⟩]⟩ : TopoWorld) [1] (by decide) (by decide)
    (by
      intro p hp
      have hp1 : p = 1 := by simpa using hp
      subst hp1
      exact ⟨⟨"a", [0], [], Collection.none, false, false, false, true, true,
        []⟩, rfl, rfl, by decide⟩)
  have h5 := TStep.composite
    (⟨[⟨"root", [], [1], classifyCollection "fuchsia-boot://drv", true, false,
        false, true, true, []⟩,
       ⟨"a", [0], [2], Collection.none, false, false, false, true, true, []⟩,
       C6comp]⟩ : TopoWorld) [1] (by decide) (by decide)
    (by
      intro p hp
      have hp1 : p = 1 := by simpa using hp
      subst hp1
      exact ⟨⟨"a", [0], [2], Collection.none, false, false, false, true, true,
        []⟩, rfl, rfl, by decide⟩)
  exact Relation.ReflTransGen.tail
    (Relation.ReflTransGen.tail
      (Relation.ReflTransGen.tail
        (Relation.ReflTransGen.tail
          (Relation.ReflTransGen.tail Relation.ReflTransGen.refl h1) h2) h3)
      h4) h5

/-- C6 counterexample: sibling-name uniqueness does not extend to composite
nodes.  `CreateCompositeNode` builds every composite with the fixed name
"composite" and `AddToParents` attaches it without any duplicate-name check,
so a reachable world has node 1 with two distinct children, both named
"composite". -/
theorem composite_sibling_name_clash :
    TReachable C6world ∧
    C6world.tnodes[1]? = Option.some C6mid ∧
    2 ∈ C6mid.children ∧ 3 ∈ C6mid.children ∧ (2 : Nat) ≠ 3 ∧
    C6world.tnodes[2]? = Option.some C6comp ∧
    C6world.tnodes[3]? = Option.some C6comp ∧
    C6comp.tname = "composite" :=
  ⟨C6world_reachable, rfl, by decide, by decide, by decide, rfl, rfl, rfl⟩

/-- C6 (amended): in every reachable world, no two children of the same
node that were both created by `AddChild` (i.e. not via
`CreateCompositeNode`) share a name; composite-created children are excluded
because they all carry the fixed name "composite". -/
theorem sibling_names_unique {w : TopoWorld} (hreach : TReachable w) :
    ∀ (p : Nat) (pd : TNode), w.tnodes[p]? = Option.some pd →
    ∀ c1 ∈ pd.children, ∀ c2 ∈ pd.children, c1 ≠ c2 →
    ∀ cd1 cd2, w.tnodes[c1]? = Option.some cd1 →
      w.tnodes[c2]? = Option.some cd2 → cd1.viaComposite = false →
      cd2.viaComposite = false → cd1.tname ≠ cd2.tname := by
  have hI := TReachable_TInv hreach
  intro p pd hp c1 hc1 c2 hc2 hne cd1 cd2 hcd1 hcd2 hv1 hv2
  exact hI.sib p pd hp c1 hc1 c2 hc2 hne cd1 cd2 hcd1 hcd2 hv1 hv2

theorem C6world2_reachable : TReachable C6world2 := by
  have h1 := TStep.startDriver initWorld 0 "fuchsia-boot://drv"
    ⟨"root", [], [], Collection.none, false, false, false, true, true, []⟩
    rfl rfl
  have h2 := TStep.runnerStart
    (initWorld.setT 0 ⟨"root", [], [],
      classifyCollection "fuchsia-boot://drv", false, true, false, true, true,
      []⟩) 0
    ⟨"root", [], [], classifyCollection "fuchsia-boot://drv", false, true,
      false, true, true, []⟩ rfl rfl
  have h3 := TStep.addChild
    ((initWorld.setT 0 ⟨"root", [], [],
        classifyCollection "fuchsia-boot://drv", false, true, false, true,
        true, []⟩).setT 0
      ⟨"root", [], [], classifyCollection "fuchsia-boot://drv", true, false,
        false, true, true, []⟩) 0
    ⟨"root", [], [], classifyCollection "fuchsia-boot://drv", true, false,
      false, true, true, []⟩ "a" false [] rfl rfl rfl rfl (by decide)
    (by simp)
  have h4 := TStep.addChild
    (⟨[⟨"root", [], [1], classifyCollection "fuchsia-boot://drv", true, false,
        false, true, true, []⟩,
       ⟨"a", [0], [], Collection.none, false, false, false, true, true,
        []⟩]⟩ : TopoWorld) 0
    ⟨"root", [], [1], classifyCollection "fuchsia-boot://drv", true, false,
      false, true, true, []⟩ "b" false [] rfl rfl rfl rfl (by decide)
    (by
      intro c hc cd hcd
      have hc1 : c = 1 := by simpa using hc
      subst hc1
      have hcda : cd = ⟨"a", [0], [], Collection.none, false, false, false,
          true, true, []⟩ := by
        have hr : (⟨[⟨"root", [], [1],
            classifyCollection "fuchsia-boot://drv", true, false, false, true,
            true, []⟩,
           ⟨"a", [0], [], Collection.none, false, false, false, true, true,
            []⟩]⟩ : TopoWorld).tnodes[1]? =
            Option.some ⟨"a", [0], [], Collection.none, false, false, false,
              true, true, []⟩ := rfl
        rw [hr] at hcd
        exact (Option.some.inj hcd).symm
      rw [hcda]
      decide)
  exact Relation.ReflTransGen.tail
    (Relation.ReflTransGen.tail
      (Relation.ReflTransGen.tail
        (Relation.ReflTransGen.tail Relation.ReflTransGen.refl h1) h2) h3) h4

theorem sibling_names_unique_witness : C6childA.tname ≠ C6childB.tname :=
  sibling_names_unique C6world2_reachable 0 C6w2root rfl 1 (by decide) 2
    (by decide) (by decide) C6childA C6childB rfl rfl rfl rfl

/-! ## Composite assembly (claim C2) -/
/-- The slot scan fails exactly when some slot is unresolved: never set, or
set to a node that is gone. -/
theorem scanSlots_none_iff (w : TopoWorld) :
    ∀ (ss : List (Option Nat)), scanSlots w ss = Option.none ↔
      ∃ s ∈ ss, lockSlot w s = Option.none := by
  intro ss
  induction ss with
  | nil => simp [scanSlots]
  | cons s ss' IH =>
    cases hl : lockSlot w s with
    | none =>
      simp only [scanSlots, hl]
      constructor
      · intro _
        exact ⟨s, List.mem_cons_self s ss', hl⟩
      · intro _
        trivial
    | some i =>
      simp only [scanSlots, hl]
      constructor
      · intro h
        have hsc : scanSlots w ss' = Option.none := by
          cases hsc : scanSlots w ss' with
          | none => rfl
          | some ps =>
            rw [hsc] at h
            exact Option.noConfusion h
        obtain ⟨t, ht, hlt⟩ := IH.mp hsc
        exact ⟨t, List.mem_cons_of_mem s ht, hlt⟩
      · intro ⟨t, ht, hlt⟩
        rcases List.mem_cons.mp ht with rfl | ht'
        · rw [hl] at hlt
          exact Option.noConfusion hlt
        · rw [IH.mpr ⟨t, ht', hlt⟩]
          rfl

/-- A successful scan returns exactly the locked slot nodes in slot-index
order. -/
theorem scanSlots_spec (w : TopoWorld) :
    ∀ (ss : List (Option Nat)) (ps : List Nat),
      scanSlots w ss = Option.some ps →
      ps.length = ss.length ∧
      ∀ (k : Nat) (s : Option Nat), ss[k]? = Option.some s →
        lockSlot w s = ps[k]? := by
  intro ss
  induction ss with
  | nil =>
    intro ps hps
    have : ps = [] := (Option.some.inj hps).symm
    subst this
    exact ⟨rfl, by intro k s hk; simp at hk⟩
  | cons s ss' IH =>
    intro ps hps
    cases hl : lockSlot w s with
    | none =>
      rw [scanSlots, hl] at hps
      exact Option.noConfusion hps
    | some i =>
      rw [scanSlots, hl] at hps
      cases hsc : scanSlots w ss' with
      | none =>
        rw [hsc] at hps
        exact Option.noConfusion hps
      | some ps' =>
        rw [hsc] at hps
        have hps' : ps = i :: ps' := (Option.some.inj hps).symm
        subst hps'
        obtain ⟨hlen, hk⟩ := IH ps' hsc
        refine ⟨by simp [hlen], ?_⟩
        intro k t hkt
        cases k with
        | zero =>
          have hts : t = s := by
            have h0 : Option.some s = Option.some t := by simpa using hkt
            exact (Option.some.inj h0).symm
          subst hts
          rw [hl]
          simp
        | succ k' =>
          have hkt' : ss'[k']? = Option.some t := by simpa using hkt
          have hres := hk k' t hkt'
          simpa using hres

/-- `AddToParents` through `attachAll`: every listed parent that exists gets
the new id appended into its children (stated without assuming the parent
list is duplicate-free). -/
theorem attachAll_get_any (newId : Nat) :
    ∀ (ps : List Nat) (l : List TNode) (p : Nat) (pd : TNode),
      l[p]? = Option.some pd →
      ∃ pd', (attachAll newId l ps)[p]? = Option.some pd' ∧
        (∀ c ∈ pd.children, c ∈ pd'.children) ∧
        (p ∈ ps → newId ∈ pd'.children) := by
  intro ps
  induction ps with
  | nil =>
    intro l p pd hp
    exact ⟨pd, hp, fun c hc => hc, by simp⟩
  | cons q ps' IH =>
    intro l p pd hp
    unfold attachAll
    cases hq : l[q]? with
    | none =>
      obtain ⟨pd', h1, h2, h3⟩ := IH l p pd hp
      refine ⟨pd', h1, h2, ?_⟩
      intro hmem
      rcases List.mem_cons.mp hmem with rfl | hm'
      · rw [hp] at hq
        exact Option.noConfusion hq
      · exact h3 hm'
    | some qd =>
      by_cases hpq : p = q
      · subst hpq
        rw [hp] at hq
        have hqd : pd = qd := Option.some.inj hq
        subst hqd
        have hp1 : (l.set p { pd with children := pd.children ++ [newId] })[p]? =
            Option.some { pd with children := pd.children ++ [newId] } :=
          getT_set_self (getT_lt hp) _
        obtain ⟨pd', h1, h2, h3⟩ := IH _ p _ hp1
        refine ⟨pd', h1, ?_, ?_⟩
        · intro c hc
          exact h2 c (List.mem_append_left _ hc)
        · intro _
          exact h2 newId (List.mem_append_right _ (List.mem_singleton.mpr rfl))
      · have hp1 : (l.set q { qd with children := qd.children ++ [newId] })[p]? =
            Option.some pd := by
          rw [getT_set_ne _ (fun he => hpq he.symm)]
          exact hp
        obtain ⟨pd', h1, h2, h3⟩ := IH _ p pd hp1
        refine ⟨pd', h1, h2, ?_⟩
        intro hmem
        rcases List.mem_cons.mp hmem with rfl | hm'
        · exact absurd rfl hpq
        · exact h3 hm'

/-- C2: storing a node's weak reference in its assigned slot of a pending
composite set, a `CreateCompositeNode` call with some slot still unresolved
returns the wait signal `ZX_ERR_NEXT` and leaves the (updated) pending set
in place; the call that resolves the last slot consumes the pending set and
creates exactly one new composite node whose parent list is exactly the
locked slot nodes in slot-index order, the new id being appended to the
children list of each of those parents. -/
theorem createCompositeNode_pending {w : TopoWorld}
    {entries : List CompositeEntry} {eIdx slotIdx nId : Nat}
    {entry : CompositeEntry} {slots' : List (Option Nat)}
    {entries' : List CompositeEntry}
    (he : entries[eIdx]? = Option.some entry)
    (hs : slots' = entry.slots.set slotIdx (Option.some nId))
    (hen : entries' = entries.set eIdx ⟨entry.url, slots'⟩) :
    ((∃ s ∈ slots', lockSlot w s = Option.none) →
      createCompositeNode w entries eIdx slotIdx nId =
        (w, entries', Except.error ZX_ERR_NEXT) ∧
      entries'[eIdx]? = Option.some ⟨entry.url, slots'⟩ ∧
      entries'.length = entries.length) ∧
    (∀ ps, scanSlots w slots' = Option.some ps →
      ∃ w', createCompositeNode w entries eIdx slotIdx nId =
          (w', entries'.eraseIdx eIdx, Except.ok w.tnodes.length) ∧
        (entries'.eraseIdx eIdx).length + 1 = entries.length ∧
        w'.tnodes.length = w.tnodes.length + 1 ∧
        w'.tnodes[w.tnodes.length]? = Option.some
          ⟨"composite", ps, [], Collection.none, false, false, true, true,
            true, []⟩ ∧
        ps.length = slots'.length ∧
        (∀ (k : Nat) (s : Option Nat), slots'[k]? = Option.some s →
          lockSlot w s = ps[k]?) ∧
        (∀ p ∈ ps, ∀ (pd : TNode), w.tnodes[p]? = Option.some pd →
          ∃ pd', w'.tnodes[p]? = Option.some pd' ∧
            w.tnodes.length ∈ pd'.children) ∧
        (ps.Nodup → ∀ p ∈ ps, ∀ (pd : TNode), w.tnodes[p]? = Option.some pd →
          w'.tnodes[p]? = Option.some
            { pd with children := pd.children ++ [w.tnodes.length] })) := by
  subst hs
  subst hen
  have hlt : eIdx < entries.length := (List.getElem?_eq_some.mp he).1
  constructor
  · intro hex
    have hscan : scanSlots w (entry.slots.set slotIdx (Option.some nId)) =
        Option.none :=
      (scanSlots_none_iff w _).mpr hex
    refine ⟨?_, ?_, ?_⟩
    · simp only [createCompositeNode, he, hscan]
    · rw [List.getElem?_set_self']
      rw [he]
      rfl
    · simp
  · intro ps hps
    obtain ⟨hlen, hkth⟩ := scanSlots_spec w _ ps hps
    have hAlen : (attachAll w.tnodes.length w.tnodes ps).length =
        w.tnodes.length := attachAll_length _ ps w.tnodes
    refine ⟨⟨attachAll w.tnodes.length w.tnodes ps ++
      [⟨"composite", ps, [], Collection.none, false, false, true, true, true,
        []⟩]⟩, ?_, ?_, ?_, ?_, hlen, hkth, ?_, ?_⟩
    · simp only [createCompositeNode, he, hps]
    · rw [List.length_eraseIdx]
      simp [hlt]
      omega
    · show (attachAll w.tnodes.length w.tnodes ps ++ [_]).length = _
      simp [hAlen]
    · have hcl := List.getElem?_concat_length
        (attachAll w.tnodes.length w.tnodes ps)
        (⟨"composite", ps, [], Collection.none, false, false, true, true,
          true, []⟩ : TNode)
      rw [hAlen] at hcl
      exact hcl
    · intro p hp pd hpd
      obtain ⟨pd', h1, h2, h3⟩ := attachAll_get_any w.tnodes.length ps
        w.tnodes p pd hpd
      have hplt : p < (attachAll w.tnodes.length w.tnodes ps).length := by
        rw [hAlen]
        exact getT_lt hpd
      refine ⟨pd', ?_, h3 hp⟩
      show (attachAll w.tnodes.length w.tnodes ps ++ [_])[p]? = _
      rw [getT_append_lt hplt]
      exact h1
    · intro hnd p hp pd hpd
      have hplt : p < (attachAll w.tnodes.length w.tnodes ps).length := by
        rw [hAlen]
        exact getT_lt hpd
      show (attachAll w.tnodes.length w.tnodes ps ++ [_])[p]? = _
      rw [getT_append_lt hplt]
      exact attachAll_get_mem w.tnodes.length ps w.tnodes p pd hnd hp hpd

theorem createCompositeNode_pending_witness :
    ((∃ s ∈ C2slots, lockSlot C2w s = Option.none) →
      createCompositeNode C2w C2entries 0 1 1 =
        (C2w, C2entries', Except.error ZX_ERR_NEXT) ∧
      C2entries'[0]? = Option.some ⟨"u", C2slots⟩ ∧
      C2entries'.length = C2entries.length) ∧
    (∀ ps, scanSlots C2w C2slots = Option.some ps →
      ∃ w', createCompositeNode C2w C2entries 0 1 1 =
          (w', C2entries'.eraseIdx 0, Except.ok C2w.tnodes.length) ∧
        (C2entries'.eraseIdx 0).length + 1 = C2entries.length ∧
        w'.tnodes.length = C2w.tnodes.length + 1 ∧
        w'.tnodes[C2w.tnodes.length]? = Option.some
          ⟨"composite", ps, [], Collection.none, false, false, true, true,
            true, []⟩ ∧
        ps.length = C2slots.length ∧
        (∀ (k : Nat) (s : Option Nat), C2slots[k]? = Option.some s →
          lockSlot C2w s = ps[k]?) ∧
        (∀ p ∈ ps, ∀ (pd : TNode), C2w.tnodes[p]? = Option.some pd →
          ∃ pd', w'.tnodes[p]? = Option.some pd' ∧
            C2w.tnodes.length ∈ pd'.children) ∧
        (ps.Nodup → ∀ p ∈ ps, ∀ (pd : TNode),
          C2w.tnodes[p]? = Option.some pd →
          w'.tnodes[p]? = Option.some
            { pd with children := pd.children ++ [C2w.tnodes.length] })) :=
  @createCompositeNode_pending C2w C2entries 0 1 1
    ⟨"u", [Option.some 0, Option.none]⟩ C2slots C2entries' rfl rfl rfl

end DriverManager
